import Mathlib

/-!
Verification of the 9router request-translation and project-id services.

The development shallowly embeds the JavaScript sources:
* `src/lib/.../openai-responses-to-openai.js` (the `openaiResponsesToOpenAIRequest`
  translator registered for the OpenAI Responses → OpenAI Chat Completions edge);
* the project-id service (`getProjectIdForConnection`, `onboardUser`,
  `extractProjectIdFromOnboard`).

JavaScript values are modelled by the inductive type `JVal` (JSON-like values
plus `undefined` for the JavaScript value `undefined`).  Numbers are carried as
integers: no claim involves numeric computation on body fields.  Property
access is modelled as total (`JVal.get` returns `undefined` on primitive
receivers); the claims below are stated over inputs on which the source and
this total model agree (object receivers).
-/

/-- JavaScript values as used by the translator: JSON values plus `undefined`.
Objects are insertion-ordered association lists, mirroring JavaScript object
key ordering.  A JavaScript object never holds two properties with one key, so
well-formed values have no duplicate keys.  -/
inductive JVal where
  | undefined : JVal
  | null : JVal
  | bool : Bool → JVal
  | num : Int → JVal
  | str : String → JVal
  | arr : List JVal → JVal
  | obj : List (String × JVal) → JVal

/-- First-occurrence lookup in an association list (JavaScript property read). -/
def lookupA {α : Type} : List (String × α) → String → Option α
  | [], _ => none
  | (k, v) :: fs, key => if k = key then some v else lookupA fs key

/-- Replace the first binding of a key, or append a fresh binding at the end:
the semantics of a JavaScript property assignment on an ordered object. -/
def setA {α : Type} : List (String × α) → String → α → List (String × α)
  | [], key, v => [(key, v)]
  | (k, w) :: fs, key, v => if k = key then (key, v) :: fs else (k, w) :: setA fs key v

/-- Remove every binding of a key: the semantics of the `delete` operator.
On well-formed (duplicate-free) objects this coincides with removing the one
binding. -/
def delA {α : Type} : List (String × α) → String → List (String × α)
  | [], _ => []
  | (k, w) :: fs, key => if k = key then delA fs key else (k, w) :: delA fs key

/-- Property read `v[k]`: total model of JavaScript property access.  Missing
properties and primitive receivers give `undefined`.  (JavaScript throws on a
`null`/`undefined` receiver; the claims only read properties of objects.) -/
def JVal.get (v : JVal) (k : String) : JVal :=
  match v with
  | .obj fs => match lookupA fs k with
    | some w => w
    | none => .undefined
  | _ => .undefined

/-- JavaScript truthiness: `undefined`, `null`, `false`, `0` and `""` are
falsy; every object and array is truthy. -/
def JVal.truthy : JVal → Bool
  | .undefined => false
  | .null => false
  | .bool b => b
  | .num n => n != 0
  | .str s => s != ""
  | .arr _ => true
  | .obj _ => true

/-- Strict equality of a value against a string literal (`v === "s"`). -/
def JVal.isStr (v : JVal) (s : String) : Bool :=
  match v with
  | .str t => t = s
  | _ => false

/-- Property assignment `v[k] = w` on an object (identity on non-objects,
which no reachable assignment of the source hits). -/
def JVal.setField (v : JVal) (k : String) (w : JVal) : JVal :=
  match v with
  | .obj fs => .obj (setA fs k w)
  | _ => v

/-- The `delete v[k]` operator on an object. -/
def JVal.delField (v : JVal) (k : String) : JVal :=
  match v with
  | .obj fs => .obj (delA fs k)
  | _ => v

/-- `o[k].push(x)` where `o[k]` is an array: used for
`currentAssistantMsg.tool_calls.push(...)`. -/
def JVal.pushIntoArrField (o : JVal) (k : String) (x : JVal) : JVal :=
  match o.get k with
  | .arr xs => o.setField k (.arr (xs ++ [x]))
  | _ => o

/-- The element sequence of a `for (const item of v)` loop: arrays yield their
elements, strings their characters; other values are not iterable (JavaScript
throws a TypeError, modelled as `none`); `for`-iteration of the source only
reads, so the eager element list agrees with the lazy iterator. -/
def JVal.iterElems : JVal → Option (List JVal)
  | .arr xs => some xs
  | .str s => some (s.toList.map (fun c => .str (String.singleton c)))
  | _ => none

/-- One hexadecimal digit. -/
def hexDigit (n : Nat) : Char :=
  if n < 10 then Char.ofNat (48 + n) else Char.ofNat (87 + n % 16)

/-- Four-digit hexadecimal rendering, for `\u00XX` escapes. -/
def hex4 (n : Nat) : String :=
  String.mk [hexDigit (n / 4096 % 16), hexDigit (n / 256 % 16), hexDigit (n / 16 % 16), hexDigit (n % 16)]

/-- JSON string escaping of one character, as produced by `JSON.stringify`. -/
def escChar (c : Char) : String :=
  if c = '"' then "\\\""
  else if c = '\\' then "\\\\"
  else if c = Char.ofNat 8 then "\\b"
  else if c = Char.ofNat 12 then "\\f"
  else if c = '\n' then "\\n"
  else if c = Char.ofNat 13 then "\\r"
  else if c = '\t' then "\\t"
  else if c.toNat < 32 then "\\u" ++ hex4 c.toNat
  else String.singleton c

/-- JSON rendering of a string literal. -/
def escString (s : String) : String :=
  "\"" ++ String.join (s.toList.map escChar) ++ "\""

mutual

/-- Model of `JSON.stringify`: `none` models the JavaScript result
`undefined` (for an `undefined` argument).  Inside objects, properties whose
value does not stringify are skipped; inside arrays they render as `null`,
as `JSON.stringify` does. -/
def JVal.stringify : JVal → Option String
  | .undefined => none
  | .null => some "null"
  | .bool b => some (if b then "true" else "false")
  | .num n => some (toString n)
  | .str s => some (escString s)
  | .arr xs => some ("[" ++ String.intercalate "," (stringifyList xs) ++ "]")
  | .obj fs => some ("\x7b" ++ String.intercalate "," (stringifyFields fs) ++ "\x7d")

/-- Array elements under `JSON.stringify` (unstringifiable entries render as
`null`). -/
def stringifyList : List JVal → List String
  | [] => []
  | v :: vs =>
    (match v.stringify with
     | some s => s
     | none => "null") :: stringifyList vs

/-- Object properties under `JSON.stringify` (unstringifiable entries are
skipped). -/
def stringifyFields : List (String × JVal) → List String
  | [] => []
  | (k, v) :: fs =>
    match v.stringify with
    | some s => (escString k ++ ":" ++ s) :: stringifyFields fs
    | none => stringifyFields fs

end

/-! ## The translator `openaiResponsesToOpenAIRequest`

Embedding of the request transform registered for the
OpenAI Responses → OpenAI Chat Completions edge. -/

/-- Content-part conversion (source lines 70-74): `input_text` and
`output_text` parts become `text` parts; every other part passes through. -/
def convContent (c : JVal) : JVal :=
  if (c.get "type").isStr "input_text" then .obj [("type", .str "text"), ("text", c.get "text")]
  else if (c.get "type").isStr "output_text" then .obj [("type", .str "text"), ("text", c.get "text")]
  else c

/-- The converted content of a `message` item (source lines 69-75):
`Array.isArray(item.content)` maps the parts, otherwise the content passes
through unchanged. -/
def msgContent (item : JVal) : JVal :=
  match item.get "content" with
  | .arr cs => .arr (cs.map convContent)
  | v => v

/-- The message pushed for a `message` item (source line 76). -/
def convMessageItem (item : JVal) : JVal :=
  .obj [("role", item.get "role"), ("content", msgContent item)]

/-- The tool-call entry built from a `function_call` item (source lines
87-94). -/
def toolCallOfItem (item : JVal) : JVal :=
  .obj [("id", item.get "call_id"), ("type", .str "function"),
        ("function", .obj [("name", item.get "name"), ("arguments", item.get "arguments")])]

/-- The `content` of a tool-result message (source line 113):
`typeof item.output === "string" ? item.output : JSON.stringify(item.output)`. -/
def toolOutputContent (output : JVal) : JVal :=
  match output with
  | .str s => .str s
  | v =>
    match v.stringify with
    | some s => .str s
    | none => .undefined

/-- The tool-result message built from a `function_call_output` item (source
lines 110-114). -/
def toolMsgOfItem (item : JVal) : JVal :=
  .obj [("role", .str "tool"), ("tool_call_id", item.get "call_id"),
        ("content", toolOutputContent (item.get "output"))]

/-- The freshly opened assistant message of the `function_call` branch
(source lines 81-85). -/
def emptyAssistant : JVal :=
  .obj [("role", .str "assistant"), ("content", .null), ("tool_calls", .arr [])]

/-- The loop state of the translation pass: the messages emitted so far, the
in-progress assistant message (`currentAssistantMsg`) and the buffered tool
results (`pendingToolResults`; the source declares and flushes this buffer but
never fills it). -/
structure LoopSt where
  messages : List JVal
  cur : Option JVal
  pending : List JVal

/-- Flush `currentAssistantMsg` into the message list (source lines 56-59,
98-101). -/
def flushCur (st : LoopSt) : LoopSt :=
  match st.cur with
  | some m => { st with messages := st.messages ++ [m], cur := none }
  | none => st

/-- Flush `pendingToolResults` into the message list (source lines 61-66,
103-108). -/
def flushPending (st : LoopSt) : LoopSt :=
  { st with messages := st.messages ++ st.pending, pending := [] }

/-- One iteration of the `for (const item of body.input)` loop (source lines
53-120).  A `reasoning` item, and any item of unrecognized type, leaves the
state unchanged (the source skips both). -/
def stepItem (st : LoopSt) (item : JVal) : LoopSt :=
  if (item.get "type").isStr "message" then
    let st1 := flushPending (flushCur st)
    { st1 with messages := st1.messages ++ [convMessageItem item] }
  else if (item.get "type").isStr "function_call" then
    let cur0 := match st.cur with
      | some m => m
      | none => emptyAssistant
    { st with cur := some (cur0.pushIntoArrField "tool_calls" (toolCallOfItem item)) }
  else if (item.get "type").isStr "function_call_output" then
    let st1 := flushPending (flushCur st)
    { st1 with messages := st1.messages ++ [toolMsgOfItem item] }
  else
    st

/-- The messages present before the loop runs: the synthesized system message
when `body.instructions` is truthy (source lines 45-47). -/
def initMessages (instructions : JVal) : List JVal :=
  if instructions.truthy then [.obj [("role", .str "system"), ("content", instructions)]] else []

/-- The full message list: initial system message, the left-to-right pass over
the items, and the final flush of the open assistant message and buffered tool
results (source lines 122-130). -/
def buildMessages (instructions : JVal) (items : List JVal) : List JVal :=
  let st := items.foldl stepItem { messages := initMessages instructions, cur := none, pending := [] }
  st.messages ++ (match st.cur with
    | some m => [m]
    | none => []) ++ st.pending

/-- Tool-declaration normalization (source lines 134-145): a declaration with
a truthy `function` property passes through; otherwise it is wrapped into the
nested shape. -/
def convTool (tool : JVal) : JVal :=
  if (tool.get "function").truthy then tool
  else .obj [("type", .str "function"),
             ("function", .obj [("name", tool.get "name"), ("description", tool.get "description"),
                                ("parameters", tool.get "parameters"), ("strict", tool.get "strict")])]

/-- The tools-conversion step (source lines 133-146): when `body.tools` is
truthy and an array, replace the `tools` field of the result with the
normalized declarations. -/
def applyToolsConv (body result1 : JVal) : JVal :=
  if (body.get "tools").truthy then
    match body.get "tools" with
    | .arr ts => result1.setField "tools" (.arr (ts.map convTool))
    | _ => result1
  else result1

/-- The cleanup of Responses-specific fields (source lines 149-154). -/
def stripResponsesFields (v : JVal) : JVal :=
  (((((v.delField "input").delField "instructions").delField "include").delField
      "prompt_cache_key").delField "store").delField "reasoning"

/-- Embedding of `openaiResponsesToOpenAIRequest(model, body, stream,
credentials)` (source lines 38-157).  `none` models a thrown TypeError: a
`null`/`undefined` body, or a truthy non-iterable `input`.  The mutations of
the source all target the shallow copy `result = { ...body }`, so the shallow
copy plus the two field assignments (`messages`, `tools`) and the six deletes
reproduce the returned object.  The `model`, `stream` and `credentials`
arguments are unused, as in the source. -/
def openaiResponsesToOpenAIRequest (model body stream credentials : JVal) : Option JVal :=
  match body with
  | .null => none
  | .undefined => none
  | _ =>
    if ¬ (body.get "input").truthy then some body
    else
      match (body.get "input").iterElems with
      | none => none
      | some items =>
        let result1 := body.setField "messages" (.arr (buildMessages (body.get "instructions") items))
        some (stripResponsesFields (applyToolsConv body result1))

/-! ## Heap model of the translator

The no-mutation contract is about JavaScript object identity, so it cannot be
read off the pure value model.  This section re-embeds
`openaiResponsesToOpenAIRequest` over an explicit heap of addressed objects:
every JavaScript allocation becomes `JHeap.alloc`, every property assignment,
`delete` and `Array.push` becomes a write at an explicit address.  The frame
theorem then states that no address that existed at entry is ever written. -/

/-- Primitive (non-object) JavaScript values. -/
inductive HPrim where
  | undefined : HPrim
  | null : HPrim
  | bool : Bool → HPrim
  | num : Int → HPrim
  | str : String → HPrim

/-- A JavaScript value: a primitive or a reference to a heap object. -/
inductive HVal where
  | prim : HPrim → HVal
  | ref : Nat → HVal

/-- A heap object: an array or an ordered string-keyed object. -/
inductive HObj where
  | arr : List HVal → HObj
  | obj : List (String × HVal) → HObj

/-- The mutable store: allocated objects by address, next fresh address. -/
structure JHeap where
  mem : Nat → Option HObj
  next : Nat

/-- Heap well-formedness: no object lives at or above the allocation
frontier. -/
def JHeap.wf (h : JHeap) : Prop :=
  ∀ a, h.next ≤ a → h.mem a = none

/-- Allocate a fresh object, returning the new heap and its address. -/
def JHeap.alloc (h : JHeap) (o : HObj) : JHeap × Nat :=
  (⟨fun a => if a = h.next then some o else h.mem a, h.next + 1⟩, h.next)

/-- Overwrite the object at an address (used only through the field/array
operations below, which require an object to be present). -/
def JHeap.write (h : JHeap) (a : Nat) (o : HObj) : JHeap :=
  ⟨fun x => if x = a then some o else h.mem x, h.next⟩

/-- Property read through the heap: `v[k]`.  Total, as in the value model. -/
def JHeap.getField (h : JHeap) (v : HVal) (k : String) : HVal :=
  match v with
  | .ref a =>
    match h.mem a with
    | some (.obj fs) =>
      match lookupA fs k with
      | some w => w
      | none => .prim .undefined
    | _ => .prim .undefined
  | _ => .prim .undefined

/-- Property assignment `o[k] = v` at address `a`. -/
def JHeap.setFieldA (h : JHeap) (a : Nat) (k : String) (v : HVal) : JHeap :=
  match h.mem a with
  | some (.obj fs) => h.write a (.obj (setA fs k v))
  | _ => h

/-- `delete o[k]` at address `a`. -/
def JHeap.delFieldA (h : JHeap) (a : Nat) (k : String) : JHeap :=
  match h.mem a with
  | some (.obj fs) => h.write a (.obj (delA fs k))
  | _ => h

/-- `arr.push(v)` at address `a`. -/
def JHeap.pushA (h : JHeap) (a : Nat) (v : HVal) : JHeap :=
  match h.mem a with
  | some (.arr xs) => h.write a (.arr (xs ++ [v]))
  | _ => h

/-- Truthiness of a heap value; every object reference is truthy. -/
def truthyHv : HVal → Bool
  | .prim .undefined => false
  | .prim .null => false
  | .prim (.bool b) => b
  | .prim (.num n) => n != 0
  | .prim (.str s) => s != ""
  | .ref _ => true

/-- Strict equality of a heap value against a string literal. -/
def isStrHv : HVal → String → Bool
  | .prim (.str t), s => t = s
  | _, _ => false

/-- The shallow copy `{ ...body }`: a fresh object sharing the field values
of the source object.  (Spreading a primitive yields an empty object; the
array/string corner of the spread operator is not hit by the translator.) -/
def JHeap.spreadAlloc (h : JHeap) (v : HVal) : JHeap × Nat :=
  match v with
  | .ref a =>
    match h.mem a with
    | some (.obj fs) => h.alloc (.obj fs)
    | _ => h.alloc (.obj [])
  | _ => h.alloc (.obj [])

/-- The element list of `for (const item of v)` over the heap. -/
def JHeap.elems (h : JHeap) (v : HVal) : List HVal :=
  match v with
  | .ref a =>
    match h.mem a with
    | some (.arr xs) => xs
    | _ => []
  | .prim (.str s) => s.toList.map (fun c => .prim (.str (String.singleton c)))
  | _ => []

/-- `JSON.stringify` over the heap, fuel-bounded (the fuel bounds recursion
depth; exhaustion models the cyclic-structure throw).  Read-only: it never
changes the heap, which is all the frame theorem needs from it. -/
def hStringify (h : JHeap) : Nat → HVal → Option String
  | 0, _ => none
  | _ + 1, .prim .undefined => none
  | _ + 1, .prim .null => some "null"
  | _ + 1, .prim (.bool b) => some (if b then "true" else "false")
  | _ + 1, .prim (.num n) => some (toString n)
  | _ + 1, .prim (.str s) => some (escString s)
  | fuel + 1, .ref a =>
    match h.mem a with
    | some (.arr xs) =>
      some ("[" ++ String.intercalate ","
        (xs.map (fun v =>
          match hStringify h fuel v with
          | some s => s
          | none => "null")) ++ "]")
    | some (.obj fs) =>
      some ("\x7b" ++ String.intercalate ","
        (fs.filterMap (fun kv =>
          (hStringify h fuel kv.2).map (fun s => escString kv.1 ++ ":" ++ s))) ++ "\x7d")
    | none => none

/-- Content-part conversion over the heap: the two text variants allocate a
fresh part object, anything else is returned as-is (shared, not copied). -/
def hConvContent (h : JHeap) (c : HVal) : JHeap × HVal :=
  if isStrHv (h.getField c "type") "input_text" then
    let (h1, a) := h.alloc (.obj [("type", .prim (.str "text")), ("text", h.getField c "text")])
    (h1, .ref a)
  else if isStrHv (h.getField c "type") "output_text" then
    let (h1, a) := h.alloc (.obj [("type", .prim (.str "text")), ("text", h.getField c "text")])
    (h1, .ref a)
  else (h, c)

/-- `cs.map(convContent)` over the heap, threading allocations. -/
def hMapConv (h : JHeap) : List HVal → JHeap × List HVal
  | [] => (h, [])
  | c :: cs =>
    let (h1, c1) := hConvContent h c
    let (h2, cs1) := hMapConv h1 cs
    (h2, c1 :: cs1)

/-- The converted content of a `message` item over the heap:
`Array.isArray(item.content)` maps the parts into a fresh array, otherwise the
content value is passed through (shared). -/
def hMsgContent (h : JHeap) (item : HVal) : JHeap × HVal :=
  let contentV := h.getField item "content"
  match contentV with
  | .ref a =>
    match h.mem a with
    | some (.arr cs) =>
      let (h1, parts) := hMapConv h cs
      let (h2, b) := h1.alloc (.arr parts)
      (h2, .ref b)
    | _ => (h, contentV)
  | _ => (h, contentV)

/-- Allocate the tool-call entry of a `function_call` item. -/
def hToolCallOfItem (h : JHeap) (item : HVal) : JHeap × HVal :=
  let (h1, f) := h.alloc (.obj [("name", h.getField item "name"),
                                ("arguments", h.getField item "arguments")])
  let (h2, t) := h1.alloc (.obj [("id", h.getField item "call_id"),
                                 ("type", .prim (.str "function")), ("function", .ref f)])
  (h2, .ref t)

/-- Allocate the tool-result message of a `function_call_output` item. -/
def hToolMsgOfItem (h : JHeap) (item : HVal) : JHeap × HVal :=
  let outv := h.getField item "output"
  let content : HVal :=
    match outv with
    | .prim (.str s) => .prim (.str s)
    | v =>
      match hStringify h (h.next + 1) v with
      | some s => .prim (.str s)
      | none => .prim .undefined
  h.alloc (.obj [("role", .prim (.str "tool")),
                 ("tool_call_id", h.getField item "call_id"),
                 ("content", content)]) |>.map id HVal.ref

/-- Loop state of the heap-level pass: the heap, the address of the open
assistant message, and the (always empty) buffered tool results. -/
structure HLoopSt where
  heap : JHeap
  cur : Option Nat
  pending : List HVal

/-- Flush the open assistant message into the messages array. -/
def hFlushCur (msgsA : Nat) (st : HLoopSt) : HLoopSt :=
  match st.cur with
  | some a => { st with heap := st.heap.pushA msgsA (.ref a), cur := none }
  | none => st

/-- Flush the buffered tool results into the messages array. -/
def hFlushPending (msgsA : Nat) (st : HLoopSt) : HLoopSt :=
  { st with heap := st.pending.foldl (fun h v => h.pushA msgsA v) st.heap, pending := [] }

/-- One iteration of the item loop over the heap (source lines 53-120). -/
def hStepItem (msgsA : Nat) (st : HLoopSt) (item : HVal) : HLoopSt :=
  let h := st.heap
  if isStrHv (h.getField item "type") "message" then
    let st1 := hFlushPending msgsA (hFlushCur msgsA st)
    let h1 := st1.heap
    let (h2, content) := hMsgContent h1 item
    let (h3, m) := h2.alloc (.obj [("role", h1.getField item "role"), ("content", content)])
    { st1 with heap := h3.pushA msgsA (.ref m) }
  else if isStrHv (h.getField item "type") "function_call" then
    let (h1, curA) :=
      match st.cur with
      | some a => (h, a)
      | none =>
        let (ha, tcs) := h.alloc (.arr [])
        let (hb, a) := ha.alloc (.obj [("role", .prim (.str "assistant")),
                                       ("content", .prim .null), ("tool_calls", .ref tcs)])
        (hb, a)
    let (h2, tc) := hToolCallOfItem h1 item
    let h3 :=
      match h2.getField (.ref curA) "tool_calls" with
      | .ref t => h2.pushA t tc
      | _ => h2
    { st with heap := h3, cur := some curA }
  else if isStrHv (h.getField item "type") "function_call_output" then
    let st1 := hFlushPending msgsA (hFlushCur msgsA st)
    let (h2, m) := hToolMsgOfItem st1.heap item
    { st1 with heap := h2.pushA msgsA m }
  else
    st

/-- Tool-declaration normalization over the heap: a truthy `function`
property passes the declaration through (shared reference); otherwise a fresh
wrapped declaration is allocated. -/
def hConvTool (h : JHeap) (tool : HVal) : JHeap × HVal :=
  if truthyHv (h.getField tool "function") then (h, tool)
  else
    let (h1, f) := h.alloc (.obj [("name", h.getField tool "name"),
                                  ("description", h.getField tool "description"),
                                  ("parameters", h.getField tool "parameters"),
                                  ("strict", h.getField tool "strict")])
    let (h2, t) := h1.alloc (.obj [("type", .prim (.str "function")), ("function", .ref f)])
    (h2, .ref t)

/-- `body.tools.map(tool => ...)` over the heap. -/
def hMapTools (h : JHeap) : List HVal → JHeap × List HVal
  | [] => (h, [])
  | t :: ts =>
    let (h1, t1) := hConvTool h t
    let (h2, ts1) := hMapTools h1 ts
    (h2, t1 :: ts1)

/-- Heap-level embedding of `openaiResponsesToOpenAIRequest` (source lines
38-157): the shallow copy, the `messages` assignment, the instructions
message, the item loop, the final flush, the tools conversion and the six
`delete` statements, each as an explicit heap operation.  Returns the final
heap and the returned value. -/
def hOpenaiResponsesToOpenAIRequest (h : JHeap) (model body stream credentials : HVal) :
    JHeap × HVal :=
  if ¬ truthyHv (h.getField body "input") then (h, body)
  else
    let (h1, resultA) := h.spreadAlloc body
    let (h2, msgsA) := h1.alloc (.arr [])
    let h3 := h2.setFieldA resultA "messages" (.ref msgsA)
    let h4 :=
      if truthyHv (h3.getField body "instructions") then
        let (ha, m) := h3.alloc (.obj [("role", .prim (.str "system")),
                                       ("content", h3.getField body "instructions")])
        ha.pushA msgsA (.ref m)
      else h3
    let items := h4.elems (h4.getField body "input")
    let stF := items.foldl (hStepItem msgsA) ⟨h4, none, []⟩
    let h5 :=
      match stF.cur with
      | some a => stF.heap.pushA msgsA (.ref a)
      | none => stF.heap
    let h6 := stF.pending.foldl (fun hh v => hh.pushA msgsA v) h5
    let h7 :=
      if truthyHv (h6.getField body "tools") then
        match h6.getField body "tools" with
        | .ref ta =>
          match h6.mem ta with
          | some (.arr ts) =>
            let (ha, ts1) := hMapTools h6 ts
            let (hb, newTools) := ha.alloc (.arr ts1)
            hb.setFieldA resultA "tools" (.ref newTools)
          | _ => h6
        | _ => h6
      else h6
    let h8 := (((((h7.delFieldA resultA "input").delFieldA resultA
        "instructions").delFieldA resultA "include").delFieldA resultA
        "prompt_cache_key").delFieldA resultA "store").delFieldA resultA "reasoning"
    (h8, .ref resultA)

/-! ## Project-id service

Embedding of the project-id service: `extractProjectIdFromOnboard`, the
`onboardUser` polling loop, and the call/settle state machine of
`getProjectIdForConnection`. -/

/-- Embedding of `extractProjectIdFromOnboard(data)` (project-id service
source lines 230-249): read `data?.response?.cloudaicompanionProject`, accept
a non-blank string directly or a non-blank string `id` property of an object
(`typeof project === "object"` also covers arrays, whose `id` read gives
`undefined`). -/
def extractProjectIdFromOnboard (data : JVal) : Option String :=
  if ¬ (data.get "response").truthy then none
  else
    let project := (data.get "response").get "cloudaicompanionProject"
    match project with
    | .str s => if s.trim = "" then none else some s.trim
    | .obj _ =>
      match project.get "id" with
      | .str s => if s.trim = "" then none else some s.trim
      | _ => none
    | .arr _ =>
      match project.get "id" with
      | .str s => if s.trim = "" then none else some s.trim
      | _ => none
    | _ => none

/-- The outcome of one `fetch` of the `onboardUser` endpoint, as observed by
the loop body: a rejection with `AbortError` (the 30-second watchdog), a
rejection with any other error, or a settled response carrying `response.ok`
and the parsed JSON body (`none` when `response.json()` itself throws). -/
inductive FetchOutcome where
  | abortError : FetchOutcome
  | otherError : String → FetchOutcome
  | resp : Bool → Option JVal → FetchOutcome

/-- How `onboardUser` finished: a returned value (`some pid` or the `null`
fallback) or an exception propagated to the caller. -/
inductive OnboardResult where
  | ok : Option String → OnboardResult
  | thrown : OnboardResult

/-- Observable trace of one `onboardUser` run: the final result, the number
of fetch attempts actually made, and the list of sleeps performed (in
milliseconds, in order). -/
structure OnboardTrace where
  result : OnboardResult
  attempts : Nat
  delays : List Nat

/-- `const MAX_ATTEMPTS = 5` (project-id service source line 146). -/
def MAX_ATTEMPTS : Nat := 5

/-- The fixed not-done-yet delay: `setTimeout(resolve, 2000)` (source line
185). -/
def ONBOARD_DELAY_MS : Nat := 2000

/-- The catch-block policy of the loop (source lines 186-198): on the last
attempt return `null`; otherwise an `AbortError` continues the loop (without
sleeping) and any other error propagates. -/
inductive CatchNext where
  | giveUp : CatchNext
  | retry : CatchNext
  | reraise : CatchNext

/-- Classify what the catch block does for a given attempt and error kind. -/
def catchPolicy (isLast : Bool) (isAbort : Bool) : CatchNext :=
  if isLast then .giveUp
  else if isAbort then .retry
  else .reraise

/-- The polling loop of `onboardUser` (source lines 148-201), parameterized
by an oracle giving the outcome of the fetch at each attempt number (1-based).
`left` counts the attempts still allowed (`MAX_ATTEMPTS + 1 - attempt`);
`made` and `delays` accumulate the observable trace. -/
def onboardLoop (oracle : Nat → FetchOutcome) : Nat → Nat → List Nat → OnboardTrace
  | 0, made, delays => ⟨.ok none, made, delays⟩
  | left + 1, made, delays =>
    let attempt := MAX_ATTEMPTS - left
    let made := made + 1
    let isLast := attempt = MAX_ATTEMPTS
    let onErr := fun (isAbort : Bool) =>
      match catchPolicy isLast isAbort with
      | .giveUp => OnboardTrace.mk (.ok none) made delays
      | .retry => onboardLoop oracle left made delays
      | .reraise => ⟨.thrown, made, delays⟩
    match oracle attempt with
    | .abortError => onErr true
    | .otherError _ => onErr false
    | .resp ok jsonData =>
      if ¬ ok then onErr false
      else
        match jsonData with
        | none => onErr false
        | some data =>
          match data.get "done" with
          | .bool true =>
            match extractProjectIdFromOnboard data with
            | some pid => ⟨.ok (some pid), made, delays⟩
            | none => onErr false
          | _ => onboardLoop oracle left made (delays ++ [ONBOARD_DELAY_MS])

/-- Embedding of `onboardUser(accessToken, tierID)` as its observable trace
against a fetch oracle. -/
def onboardUser (oracle : Nat → FetchOutcome) : OnboardTrace :=
  onboardLoop oracle MAX_ATTEMPTS 0 []

/-- Does a fetch outcome report a completed onboarding with an extractable
project id (`data.done === true` and a usable
`response.cloudaicompanionProject`)? -/
def fetchYieldsProject : FetchOutcome → Bool
  | .resp true (some data) =>
    (match data.get "done" with
     | .bool true => (extractProjectIdFromOnboard data).isSome
     | _ => false)
  | _ => false

/-- A fetch oracle whose every response is `ok` with body `{done: false}`:
the upstream never reports completion.  Used as a concrete test vector. -/
def neverDoneOracle : Nat → FetchOutcome :=
  fun _ => .resp true (some (.obj [("done", .bool false)]))

/-- One cache entry of the project-id cache: `{ projectId, fetchedAt }`. -/
structure CacheEntry where
  projectId : String
  fetchedAt : Nat

/-- `const CACHE_TTL_MS = 60 * 60 * 1000` (source line 17). -/
def CACHE_TTL_MS : Nat := 60 * 60 * 1000

/-- The module state of the project-id service: the `projectIdCache` and
`pendingFetches` maps, plus a fresh-promise counter used to give each started
fetch an identity. -/
structure PIdState where
  projectIdCache : List (String × CacheEntry)
  pendingFetches : List (String × Nat)
  nextPromise : Nat

/-- What a call to `getProjectIdForConnection` does before any suspension:
return `null` for missing arguments, return a fresh cached value, return the
in-flight promise of an earlier call for the same key, or start (and
register) a new fetch.  JavaScript strings are falsy exactly when empty. -/
inductive CallOutcome where
  | nullEarly : CallOutcome
  | cachedHit : String → CallOutcome
  | joined : Nat → CallOutcome
  | started : Nat → CallOutcome

/-- The synchronous prefix of `getProjectIdForConnection(connectionId,
accessToken)` (source lines 30-65): the guard, the cache check, the
`pendingFetches` dedup check, and otherwise the creation and registration of
a new fetch promise.  The inner async function suspends at its first `await`
before line 64 has run its course, so registration is atomic with the
checks. -/
def getProjectIdForConnection_call (st : PIdState) (now : Nat)
    (connectionId accessToken : String) : PIdState × CallOutcome :=
  if connectionId = "" ∨ accessToken = "" then (st, .nullEarly)
  else
    let hit : Option String :=
      match lookupA st.projectIdCache connectionId with
      | some e => if now - e.fetchedAt < CACHE_TTL_MS then some e.projectId else none
      | none => none
    match hit with
    | some pid => (st, .cachedHit pid)
    | none =>
      match lookupA st.pendingFetches connectionId with
      | some p => (st, .joined p)
      | none =>
        let p := st.nextPromise
        ({ st with pendingFetches := setA st.pendingFetches connectionId p,
                   nextPromise := p + 1 }, .started p)

/-- How the in-flight fetch of a connection settles: `fetchProjectId`
returned a project id, returned `null`, or threw. -/
inductive FetchSettle where
  | success : String → FetchSettle
  | nullResult : FetchSettle
  | errored : FetchSettle

/-- The settlement of the fetch promise (source lines 44-62): on success the
cache is filled and the promise resolves with the id; on a `null` result or an
error the promise resolves with `null`; the `finally` block removes the
`pendingFetches` entry in every case. -/
def getProjectIdForConnection_settle (st : PIdState) (now : Nat)
    (connectionId : String) (s : FetchSettle) : PIdState × Option String :=
  match s with
  | .success pid =>
    ({ st with projectIdCache := setA st.projectIdCache connectionId ⟨pid, now⟩,
               pendingFetches := delA st.pendingFetches connectionId }, some pid)
  | .nullResult =>
    ({ st with pendingFetches := delA st.pendingFetches connectionId }, none)
  | .errored =>
    ({ st with pendingFetches := delA st.pendingFetches connectionId }, none)

/-! ## Statement-side vocabulary

Definitions used only to state and prove the properties (not translations of
source code): the flattening of an output message list into atoms, the
per-item expected atom, and heap-agreement predicates for the frame proof. -/

/-- Is this turn item of any type other than `reasoning`? -/
def nonReasoning (item : JVal) : Bool :=
  ! (item.get "type").isStr "reasoning"

/-- Is this turn item of one of the four types the translator recognizes? -/
def recognizedItem (item : JVal) : Bool :=
  (item.get "type").isStr "message" || (item.get "type").isStr "function_call" ||
    (item.get "type").isStr "function_call_output" || (item.get "type").isStr "reasoning"

/-- The flattened contribution of one output message, used to state order
preservation: a message carrying a `tool_calls` array contributes its
tool-call entries in order, every other message contributes itself. -/
def atomsOfMsg (m : JVal) : List JVal :=
  match m.get "tool_calls" with
  | .arr tcs => tcs
  | _ => [m]

/-- The flattened contribution of an output message list. -/
def atomsOfMsgs : List JVal → List JVal
  | [] => []
  | m :: ms => atomsOfMsg m ++ atomsOfMsgs ms

/-- The single atom a recognized non-reasoning item contributes to the
flattened output. -/
def itemAtom (item : JVal) : JVal :=
  if (item.get "type").isStr "message" then convMessageItem item
  else if (item.get "type").isStr "function_call" then toolCallOfItem item
  else toolMsgOfItem item

/-- The atoms of the open assistant message. -/
def curAtoms : Option JVal → List JVal
  | none => []
  | some m => atomsOfMsg m

/-- Shape invariant of `currentAssistantMsg`: absent, or the synthesized
assistant message with some accumulated tool-call list. -/
def CurOk (c : Option JVal) : Prop :=
  c = none ∨ ∃ tcs, c = some (JVal.obj
    [("role", .str "assistant"), ("content", .null), ("tool_calls", .arr tcs)])

/-- Two heaps agree on every address below a bound. -/
def agreesBelow (n : Nat) (h h2 : JHeap) : Prop :=
  ∀ a, a < n → h2.mem a = h.mem a

/-- The relation maintained by every step of the heap-level translator run:
well-formedness, a frontier at or above the original one, and agreement with
the original heap on all originally allocated addresses. -/
def HeapExt (h0 h : JHeap) : Prop :=
  h.wf ∧ h0.next ≤ h.next ∧ agreesBelow h0.next h0 h

/-- Loop invariant of the frame proof: the open assistant message reads its
`tool_calls` as a reference allocated during the call. -/
def curInv (n0 : Nat) (st : HLoopSt) : Prop :=
  ∀ a, st.cur = some a → ∃ t, st.heap.getField (.ref a) "tool_calls" = .ref t ∧ n0 ≤ t

/-- Pure heap extension: the frontier only grows, no already-allocated
address changes, and well-formedness is preserved.  This is the effect of the
allocation-only helper functions. -/
def JHeap.Extends (h h2 : JHeap) : Prop :=
  h.next ≤ h2.next ∧ (∀ a, a < h.next → h2.mem a = h.mem a) ∧ (h.wf → h2.wf)

/-- A concrete three-object heap used as a test vector for the frame
theorem: a body object at address 0 whose `input` is the one-item array at
address 1, the item being the user message object at address 2. -/
def sampleHeap : JHeap :=
  ⟨fun n =>
    if n = 0 then some (.obj [("input", .ref 1), ("instructions", .prim (.str "hi"))])
    else if n = 1 then some (.arr [.ref 2])
    else if n = 2 then some (.obj [("type", .prim (.str "message")),
      ("role", .prim (.str "user")), ("content", .prim (.str "yo"))])
    else none, 3⟩

/-! # Lemmas -/

theorem lookupA_setA_self {α : Type} (fs : List (String × α)) (k : String) (v : α) :
    lookupA (setA fs k v) k = some v := by
  induction fs with
  | nil => simp [setA, lookupA]
  | cons kv fs ih =>
    obtain ⟨k1, v1⟩ := kv
    by_cases h : k1 = k
    · simp [setA, h, lookupA]
    · simp [setA, h, lookupA, ih]

theorem lookupA_setA_ne {α : Type} (fs : List (String × α)) (key k : String) (v : α)
    (h : k ≠ key) : lookupA (setA fs key v) k = lookupA fs k := by
  induction fs with
  | nil => simp [setA, lookupA, Ne.symm h]
  | cons kv fs ih =>
    obtain ⟨k1, v1⟩ := kv
    by_cases h1 : k1 = key
    · subst h1
      simp [setA, lookupA, Ne.symm h]
    · simp [setA, h1, lookupA, ih]

theorem lookupA_delA_self {α : Type} (fs : List (String × α)) (k : String) :
    lookupA (delA fs k) k = none := by
  induction fs with
  | nil => simp [delA, lookupA]
  | cons kv fs ih =>
    obtain ⟨k1, v1⟩ := kv
    by_cases h : k1 = k <;> simp [delA, h, lookupA, ih]

theorem lookupA_delA_ne {α : Type} (fs : List (String × α)) (key k : String)
    (h : k ≠ key) : lookupA (delA fs key) k = lookupA fs k := by
  induction fs with
  | nil => simp [delA]
  | cons kv fs ih =>
    obtain ⟨k1, v1⟩ := kv
    by_cases h1 : k1 = key
    · subst h1
      simp [delA, lookupA, Ne.symm h, ih]
    · simp [delA, h1, lookupA, ih]

theorem JVal.get_setField_self (fs : List (String × JVal)) (k : String) (w : JVal) :
    ((JVal.obj fs).setField k w).get k = w := by
  simp [JVal.setField, JVal.get, lookupA_setA_self]

theorem JVal.get_setField_ne (v : JVal) (key k : String) (w : JVal) (h : k ≠ key) :
    (v.setField key w).get k = v.get k := by
  cases v <;> simp [JVal.setField, JVal.get, lookupA_setA_ne _ _ _ _ h]

theorem JVal.get_delField_self (v : JVal) (k : String) :
    (v.delField k).get k = .undefined := by
  cases v <;> simp [JVal.delField, JVal.get, lookupA_delA_self]

theorem JVal.get_delField_ne (v : JVal) (key k : String) (h : k ≠ key) :
    (v.delField key).get k = v.get k := by
  cases v <;> simp [JVal.delField, JVal.get, lookupA_delA_ne _ _ _ h]

theorem JVal.isStr_eq {v : JVal} {s : String} (h : v.isStr s = true) : v = .str s := by
  cases v <;> simp [JVal.isStr] at h
  simp [h]

/-- Running the translator on a body with a list-valued `input` field reduces
to the composition of the message build, the tools conversion and the field
cleanup. -/
theorem run_eq (model body stream credentials : JVal) (items : List JVal)
    (hin : body.get "input" = .arr items) :
    openaiResponsesToOpenAIRequest model body stream credentials =
      some (stripResponsesFields (applyToolsConv body
        (body.setField "messages" (.arr (buildMessages (body.get "instructions") items))))) := by
  cases body with
  | obj fs =>
    simp [openaiResponsesToOpenAIRequest, hin, JVal.truthy, JVal.iterElems]
  | undefined => simp [JVal.get] at hin
  | null => simp [JVal.get] at hin
  | bool b => simp [JVal.get] at hin
  | num n => simp [JVal.get] at hin
  | str s => simp [JVal.get] at hin
  | arr xs => simp [JVal.get] at hin

theorem get_stripResponsesFields_ne (v : JVal) (k : String)
    (h1 : k ≠ "input") (h2 : k ≠ "instructions") (h3 : k ≠ "include")
    (h4 : k ≠ "prompt_cache_key") (h5 : k ≠ "store") (h6 : k ≠ "reasoning") :
    (stripResponsesFields v).get k = v.get k := by
  rw [stripResponsesFields, JVal.get_delField_ne _ _ _ h6, JVal.get_delField_ne _ _ _ h5,
      JVal.get_delField_ne _ _ _ h4, JVal.get_delField_ne _ _ _ h3,
      JVal.get_delField_ne _ _ _ h2, JVal.get_delField_ne _ _ _ h1]

theorem get_applyToolsConv_ne (body r : JVal) (k : String) (h : k ≠ "tools") :
    (applyToolsConv body r).get k = r.get k := by
  rw [applyToolsConv]
  split
  · split <;> simp [JVal.get_setField_ne _ _ _ _ h]
  · rfl

/-- The `messages` field of the translator output is the built message
list. -/
theorem run_messages (model body stream credentials : JVal) (items : List JVal)
    (hin : body.get "input" = .arr items) :
    ∃ r, openaiResponsesToOpenAIRequest model body stream credentials = some r ∧
      r.get "messages" = .arr (buildMessages (body.get "instructions") items) := by
  refine ⟨_, run_eq model body stream credentials items hin, ?_⟩
  rw [get_stripResponsesFields_ne _ _ (by decide) (by decide) (by decide) (by decide)
    (by decide) (by decide)]
  rw [get_applyToolsConv_ne _ _ _ (by decide)]
  cases body with
  | obj fs => exact JVal.get_setField_self fs "messages" _
  | undefined => simp [JVal.get] at hin
  | null => simp [JVal.get] at hin
  | bool b => simp [JVal.get] at hin
  | num n => simp [JVal.get] at hin
  | str s => simp [JVal.get] at hin
  | arr xs => simp [JVal.get] at hin

theorem stepItem_messages (st : LoopSt) (item : JVal) :
    ∃ t, (stepItem st item).messages = st.messages ++ t := by
  unfold stepItem flushPending flushCur
  split
  · cases st.cur with
    | none => exact ⟨st.pending ++ [convMessageItem item], by simp⟩
    | some m => exact ⟨[m] ++ st.pending ++ [convMessageItem item], by simp⟩
  · split
    · exact ⟨[], by simp⟩
    · split
      · cases st.cur with
        | none => exact ⟨st.pending ++ [toolMsgOfItem item], by simp⟩
        | some m => exact ⟨[m] ++ st.pending ++ [toolMsgOfItem item], by simp⟩
      · exact ⟨[], by simp⟩

theorem foldl_stepItem_messages (items : List JVal) :
    ∀ st : LoopSt, ∃ t, (items.foldl stepItem st).messages = st.messages ++ t := by
  induction items with
  | nil => exact fun st => ⟨[], by simp⟩
  | cons item rest ih =>
    intro st
    obtain ⟨t1, h1⟩ := stepItem_messages st item
    obtain ⟨t2, h2⟩ := ih (stepItem st item)
    exact ⟨t1 ++ t2, by simp [h2, h1]⟩

theorem stepItem_pending (st : LoopSt) (item : JVal) (h : st.pending = []) :
    (stepItem st item).pending = [] := by
  unfold stepItem flushPending flushCur
  split
  · rfl
  · split
    · exact h
    · split
      · rfl
      · exact h

theorem foldl_stepItem_pending (items : List JVal) :
    ∀ st : LoopSt, st.pending = [] → (items.foldl stepItem st).pending = [] := by
  induction items with
  | nil => exact fun st h => h
  | cons item rest ih => exact fun st h => ih (stepItem st item) (stepItem_pending st item h)

theorem stepItem_curOk (st : LoopSt) (item : JVal) (h : CurOk st.cur) :
    CurOk (stepItem st item).cur := by
  obtain ⟨msgs, cur, pending⟩ := st
  have h2 : CurOk cur := h
  rcases h2 with hnone | ⟨tcs, hsome⟩
  · subst hnone
    unfold stepItem flushPending flushCur
    split
    · exact Or.inl rfl
    · split
      · exact Or.inr ⟨[toolCallOfItem item], rfl⟩
      · split
        · exact Or.inl rfl
        · exact Or.inl rfl
  · subst hsome
    unfold stepItem flushPending flushCur
    split
    · exact Or.inl rfl
    · split
      · exact Or.inr ⟨tcs ++ [toolCallOfItem item], rfl⟩
      · split
        · exact Or.inl rfl
        · exact Or.inr ⟨tcs, rfl⟩

theorem foldl_stepItem_curOk (items : List JVal) :
    ∀ st : LoopSt, CurOk st.cur → CurOk (items.foldl stepItem st).cur := by
  induction items with
  | nil => exact fun st h => h
  | cons item rest ih => exact fun st h => ih (stepItem st item) (stepItem_curOk st item h)

/-! # Claim theorems -/

/-- C10: for every body whose `input` field is absent, `null` or otherwise
falsy (and that is itself an object or other non-`null`/`undefined` value, so
that the property read does not throw), the translator returns the body
completely unchanged: no `messages` list, no field stripping, no synthesized
system message even when `instructions` is present. -/
theorem C10_falsy_input_returns_body_unchanged (model body stream credentials : JVal)
    (hb1 : body ≠ .null) (hb2 : body ≠ .undefined)
    (hin : (body.get "input").truthy = false) :
    openaiResponsesToOpenAIRequest model body stream credentials = some body := by
  cases body
  case null => exact absurd rfl hb1
  case undefined => exact absurd rfl hb2
  all_goals simp [openaiResponsesToOpenAIRequest, hin]

/-- Witness for C10 at a body carrying `instructions` but no `input`: the
body comes back unchanged, instructions message and all stripping skipped. -/
theorem C10_falsy_input_returns_body_unchanged_witness :
    openaiResponsesToOpenAIRequest .undefined
        (.obj [("model", .str "gpt"), ("instructions", .str "be terse")]) .undefined .undefined =
      some (.obj [("model", .str "gpt"), ("instructions", .str "be terse")]) :=
  C10_falsy_input_returns_body_unchanged .undefined
    (.obj [("model", .str "gpt"), ("instructions", .str "be terse")]) .undefined .undefined
    (by simp) (by simp) rfl

/-- C4: for every body whose `input` is the empty list, the output `messages`
list is empty when `instructions` is falsy, and contains exactly the one
synthesized system message when `instructions` is truthy. -/
theorem C4_empty_input_messages (model body stream credentials : JVal)
    (hin : body.get "input" = .arr []) :
    ∃ r, openaiResponsesToOpenAIRequest model body stream credentials = some r ∧
      ((body.get "instructions").truthy = false → r.get "messages" = .arr []) ∧
      ((body.get "instructions").truthy = true → r.get "messages" =
        .arr [.obj [("role", .str "system"), ("content", body.get "instructions")]]) := by
  obtain ⟨r, hr, hm⟩ := run_messages model body stream credentials [] hin
  refine ⟨r, hr, ?_, ?_⟩ <;> intro hi <;>
    rw [hm] <;> simp [buildMessages, initMessages, hi]

/-- Witness for C4 at an empty-input body with instructions present: the
output messages list is exactly the system message. -/
theorem C4_empty_input_messages_witness :
    openaiResponsesToOpenAIRequest .undefined
        (.obj [("instructions", .str "be terse"), ("input", .arr [])]) .undefined .undefined =
      some (.obj [("messages",
        .arr [.obj [("role", .str "system"), ("content", .str "be terse")]])]) ∧
    (JVal.obj [("messages",
        .arr [.obj [("role", .str "system"), ("content", .str "be terse")]])]).get "messages" =
      .arr [.obj [("role", .str "system"), ("content", .str "be terse")]] := by
  obtain ⟨r, hr, _, h2⟩ := C4_empty_input_messages .undefined
    (.obj [("instructions", .str "be terse"), ("input", .arr [])]) .undefined .undefined rfl
  have h0 : openaiResponsesToOpenAIRequest .undefined
      (.obj [("instructions", .str "be terse"), ("input", .arr [])]) .undefined .undefined =
        some (.obj [("messages",
          .arr [.obj [("role", .str "system"), ("content", .str "be terse")]])]) := rfl
  rw [h0] at hr
  injection hr with hre
  rw [← hre] at h2
  exact ⟨h0, h2 rfl⟩

/-- C1: the scenario request with `instructions: "be terse"` and one user
message yields exactly `[system "be terse", user [text "hi"]]`; and in
general, for every body with truthy `instructions` and a list-valued `input`,
the synthesized system message carrying the instructions value comes first in
the output `messages`. -/
theorem C1_instructions_become_first_system_message :
    (openaiResponsesToOpenAIRequest .undefined
        (.obj [("instructions", .str "be terse"),
               ("input", .arr [.obj [("type", .str "message"), ("role", .str "user"),
                 ("content", .arr [.obj [("type", .str "input_text"), ("text", .str "hi")]])]])])
        .undefined .undefined =
      some (.obj [("messages", .arr
        [.obj [("role", .str "system"), ("content", .str "be terse")],
         .obj [("role", .str "user"),
               ("content", .arr [.obj [("type", .str "text"), ("text", .str "hi")]])]])])) ∧
    ∀ model body stream credentials items,
      (body.get "instructions").truthy = true →
      body.get "input" = .arr items →
      ∃ r rest, openaiResponsesToOpenAIRequest model body stream credentials = some r ∧
        r.get "messages" =
          .arr (.obj [("role", .str "system"), ("content", body.get "instructions")] :: rest) := by
  refine ⟨rfl, ?_⟩
  intro model body stream credentials items hi hin
  obtain ⟨r, hr, hm⟩ := run_messages model body stream credentials items hin
  obtain ⟨t, ht⟩ :=
    foldl_stepItem_messages items ⟨initMessages (body.get "instructions"), none, []⟩
  refine ⟨r, t ++ ((match (items.foldl stepItem
      ⟨initMessages (body.get "instructions"), none, []⟩).cur with
    | some m => [m]
    | none => []) ++ (items.foldl stepItem
      ⟨initMessages (body.get "instructions"), none, []⟩).pending), hr, ?_⟩
  rw [hm]
  simp only [buildMessages]
  rw [ht]
  simp [initMessages, hi]

/-- Witness for the general part of C1, at the scenario body itself: the
first output message is the synthesized system message. -/
theorem C1_instructions_become_first_system_message_witness :
    openaiResponsesToOpenAIRequest .undefined
        (.obj [("instructions", .str "be terse"),
               ("input", .arr [.obj [("type", .str "message"), ("role", .str "user"),
                 ("content", .arr [.obj [("type", .str "input_text"), ("text", .str "hi")]])]])])
        .undefined .undefined =
      some (.obj [("messages", .arr
        [.obj [("role", .str "system"), ("content", .str "be terse")],
         .obj [("role", .str "user"),
               ("content", .arr [.obj [("type", .str "text"), ("text", .str "hi")]])]])]) := by
  obtain ⟨r, rest, hr, hm⟩ := C1_instructions_become_first_system_message.2 .undefined
    (.obj [("instructions", .str "be terse"),
           ("input", .arr [.obj [("type", .str "message"), ("role", .str "user"),
             ("content", .arr [.obj [("type", .str "input_text"), ("text", .str "hi")]])]])])
    .undefined .undefined
    [.obj [("type", .str "message"), ("role", .str "user"),
      ("content", .arr [.obj [("type", .str "input_text"), ("text", .str "hi")]])]]
    rfl rfl
  exact rfl

theorem stripResponsesFields_strips (v : JVal) :
    (stripResponsesFields v).get "input" = .undefined ∧
    (stripResponsesFields v).get "instructions" = .undefined ∧
    (stripResponsesFields v).get "include" = .undefined ∧
    (stripResponsesFields v).get "prompt_cache_key" = .undefined ∧
    (stripResponsesFields v).get "store" = .undefined ∧
    (stripResponsesFields v).get "reasoning" = .undefined := by
  rw [stripResponsesFields]
  refine ⟨?_, ?_, ?_, ?_, ?_, ?_⟩
  · rw [JVal.get_delField_ne _ _ _ (by decide), JVal.get_delField_ne _ _ _ (by decide),
        JVal.get_delField_ne _ _ _ (by decide), JVal.get_delField_ne _ _ _ (by decide),
        JVal.get_delField_ne _ _ _ (by decide), JVal.get_delField_self]
  · rw [JVal.get_delField_ne _ _ _ (by decide), JVal.get_delField_ne _ _ _ (by decide),
        JVal.get_delField_ne _ _ _ (by decide), JVal.get_delField_ne _ _ _ (by decide),
        JVal.get_delField_self]
  · rw [JVal.get_delField_ne _ _ _ (by decide), JVal.get_delField_ne _ _ _ (by decide),
        JVal.get_delField_ne _ _ _ (by decide), JVal.get_delField_self]
  · rw [JVal.get_delField_ne _ _ _ (by decide), JVal.get_delField_ne _ _ _ (by decide),
        JVal.get_delField_self]
  · rw [JVal.get_delField_ne _ _ _ (by decide), JVal.get_delField_self]
  · rw [JVal.get_delField_self]

/-- C5: for every body with a list-valued `input`, the translator output
carries none of the six source-dialect fields (`input`, `instructions`,
`include`, `prompt_cache_key`, `store`, `reasoning`) and preserves every other
field it does not understand (everything except the produced `messages` and
`tools`) unchanged. -/
theorem C5_strips_responses_fields_preserves_rest (model body stream credentials : JVal)
    (items : List JVal) (hin : body.get "input" = .arr items) :
    ∃ r, openaiResponsesToOpenAIRequest model body stream credentials = some r ∧
      r.get "input" = .undefined ∧ r.get "instructions" = .undefined ∧
      r.get "include" = .undefined ∧ r.get "prompt_cache_key" = .undefined ∧
      r.get "store" = .undefined ∧ r.get "reasoning" = .undefined ∧
      ∀ k : String, k ≠ "input" → k ≠ "instructions" → k ≠ "include" →
        k ≠ "prompt_cache_key" → k ≠ "store" → k ≠ "reasoning" →
        k ≠ "messages" → k ≠ "tools" → r.get k = body.get k := by
  refine ⟨_, run_eq model body stream credentials items hin, ?_⟩
  obtain ⟨h1, h2, h3, h4, h5, h6⟩ := stripResponsesFields_strips
    (applyToolsConv body (body.setField "messages"
      (.arr (buildMessages (body.get "instructions") items))))
  refine ⟨h1, h2, h3, h4, h5, h6, ?_⟩
  intro k k1 k2 k3 k4 k5 k6 k7 k8
  rw [get_stripResponsesFields_ne _ _ k1 k2 k3 k4 k5 k6,
      get_applyToolsConv_ne _ _ _ k8, JVal.get_setField_ne _ _ _ _ k7]

/-- Witness for C5: a body with an extra `temperature` field and a `store`
flag; the output drops `store` and keeps `temperature`. -/
theorem C5_strips_responses_fields_preserves_rest_witness :
    openaiResponsesToOpenAIRequest .undefined
        (.obj [("input", .arr []), ("store", .bool true), ("temperature", .num 1)])
        .undefined .undefined =
      some (.obj [("temperature", .num 1), ("messages", .arr [])]) ∧
    (JVal.obj [("temperature", .num 1), ("messages", .arr [])]).get "store" = .undefined ∧
    (JVal.obj [("temperature", .num 1), ("messages", .arr [])]).get "temperature" =
      (JVal.obj [("input", .arr []), ("store", .bool true), ("temperature", .num 1)]).get
        "temperature" := by
  obtain ⟨r, hr, _, _, _, _, h5, _, hk⟩ := C5_strips_responses_fields_preserves_rest .undefined
    (.obj [("input", .arr []), ("store", .bool true), ("temperature", .num 1)])
    .undefined .undefined [] rfl
  have h0 : openaiResponsesToOpenAIRequest .undefined
      (.obj [("input", .arr []), ("store", .bool true), ("temperature", .num 1)])
      .undefined .undefined = some (.obj [("temperature", .num 1), ("messages", .arr [])]) := rfl
  rw [h0] at hr
  injection hr with hre
  rw [← hre] at h5 hk
  exact ⟨h0, h5, hk "temperature" (by decide) (by decide) (by decide) (by decide) (by decide)
    (by decide) (by decide) (by decide)⟩

/-- Processing a `function_call` item immediately followed by a
`function_call_output` item appends exactly two adjacent messages: the
flushed assistant message whose last tool call is the converted call, then
the tool-result message. -/
theorem step2_fc_fco (st : LoopSt) (fc fco : JVal)
    (hfc : (fc.get "type").isStr "function_call" = true)
    (hfco : (fco.get "type").isStr "function_call_output" = true)
    (hp : st.pending = []) (hcur : CurOk st.cur) :
    ∃ tcs,
      (stepItem (stepItem st fc) fco).messages =
        st.messages ++
          [JVal.obj [("role", .str "assistant"), ("content", .null),
                     ("tool_calls", .arr (tcs ++ [toolCallOfItem fc]))],
           toolMsgOfItem fco] ∧
      (stepItem (stepItem st fc) fco).cur = none ∧
      (stepItem (stepItem st fc) fco).pending = [] := by
  obtain ⟨msgs, cur, pending⟩ := st
  have hp2 : pending = [] := hp
  subst hp2
  have hc2 : CurOk cur := hcur
  have hty1 := JVal.isStr_eq hfc
  have hty2 := JVal.isStr_eq hfco
  rcases hc2 with hnone | ⟨tcs, hsome⟩
  · have hn : cur = none := hnone
    subst hn
    refine ⟨[], ?_, ?_, ?_⟩ <;>
      (simp only [stepItem, hty1, hty2]
       simp [JVal.isStr, flushCur, flushPending, JVal.pushIntoArrField, JVal.get,
         lookupA, JVal.setField, setA, emptyAssistant])
  · have hs : cur = some (JVal.obj
        [("role", .str "assistant"), ("content", .null), ("tool_calls", .arr tcs)]) := hsome
    subst hs
    refine ⟨tcs, ?_, ?_, ?_⟩ <;>
      (simp only [stepItem, hty1, hty2]
       simp [JVal.isStr, flushCur, flushPending, JVal.pushIntoArrField, JVal.get,
         lookupA, JVal.setField, setA])

/-- C2: whenever a `function_call` item is immediately followed by the
`function_call_output` item with the same call identifier, the output
contains, adjacently and with nothing in between, the assistant message whose
`tool_calls` ends with that converted call and then the tool-role message
addressed by the same call id; the output value is passed through when it is
a string and otherwise serialized with the `JSON.stringify` model (see
`toolOutputContent`). -/
theorem C2_call_and_output_adjacent (model body stream credentials : JVal)
    (pre post : List JVal) (fc fco : JVal)
    (hfc : (fc.get "type").isStr "function_call" = true)
    (hfco : (fco.get "type").isStr "function_call_output" = true)
    (hcid : fc.get "call_id" = fco.get "call_id")
    (hin : body.get "input" = .arr (pre ++ fc :: fco :: post)) :
    ∃ r A B tcs, openaiResponsesToOpenAIRequest model body stream credentials = some r ∧
      r.get "messages" = .arr (A ++
        (JVal.obj [("role", .str "assistant"), ("content", .null),
          ("tool_calls", .arr (tcs ++
            [JVal.obj [("id", fc.get "call_id"), ("type", .str "function"),
              ("function", .obj [("name", fc.get "name"),
                                 ("arguments", fc.get "arguments")])]]))]) ::
        (JVal.obj [("role", .str "tool"), ("tool_call_id", fco.get "call_id"),
          ("content", toolOutputContent (fco.get "output"))]) :: B) := by
  obtain ⟨r, hr, hm⟩ := run_messages model body stream credentials _ hin
  have st0eq : (⟨initMessages (body.get "instructions"), none, []⟩ : LoopSt).pending = [] := rfl
  have hp1 := foldl_stepItem_pending pre _ st0eq
  have hc1 := foldl_stepItem_curOk pre
    ⟨initMessages (body.get "instructions"), none, []⟩ (Or.inl rfl)
  obtain ⟨tcs, hmsg, hcur2, hpend2⟩ := step2_fc_fco
    (pre.foldl stepItem ⟨initMessages (body.get "instructions"), none, []⟩) fc fco
    hfc hfco hp1 hc1
  obtain ⟨t, ht⟩ := foldl_stepItem_messages post
    (stepItem (stepItem
      (pre.foldl stepItem ⟨initMessages (body.get "instructions"), none, []⟩) fc) fco)
  have e1 : (pre ++ fc :: fco :: post).foldl stepItem
      (⟨initMessages (body.get "instructions"), none, []⟩ : LoopSt) =
      post.foldl stepItem (stepItem (stepItem
        (pre.foldl stepItem ⟨initMessages (body.get "instructions"), none, []⟩) fc) fco) := by
    rw [show pre ++ fc :: fco :: post = (pre ++ [fc, fco]) ++ post by simp,
        List.foldl_append, List.foldl_append]
    rfl
  refine ⟨r,
    (pre.foldl stepItem ⟨initMessages (body.get "instructions"), none, []⟩).messages,
    t ++ ((match (post.foldl stepItem (stepItem (stepItem
        (pre.foldl stepItem ⟨initMessages (body.get "instructions"), none, []⟩) fc) fco)).cur with
      | some m => [m]
      | none => []) ++ (post.foldl stepItem (stepItem (stepItem
        (pre.foldl stepItem ⟨initMessages (body.get "instructions"), none, []⟩) fc) fco)).pending),
    tcs, hr, ?_⟩
  rw [hm]
  simp only [buildMessages, e1]
  rw [ht, hmsg]
  simp [toolCallOfItem, toolMsgOfItem]

/-- Witness for C2: one call followed by its output (a non-string output,
serialized to the string "42") yields exactly the adjacent assistant and tool
messages. -/
theorem C2_call_and_output_adjacent_witness :
    openaiResponsesToOpenAIRequest .undefined
        (.obj [("input", .arr
          [.obj [("type", .str "function_call"), ("call_id", .str "c1"),
                 ("name", .str "f"), ("arguments", .str "x")],
           .obj [("type", .str "function_call_output"), ("call_id", .str "c1"),
                 ("output", .num 42)]])]) .undefined .undefined =
      some (.obj [("messages", .arr
        [.obj [("role", .str "assistant"), ("content", .null),
               ("tool_calls", .arr [.obj [("id", .str "c1"), ("type", .str "function"),
                 ("function", .obj [("name", .str "f"), ("arguments", .str "x")])]])],
         .obj [("role", .str "tool"), ("tool_call_id", .str "c1"),
               ("content", .str "42")]])]) := by
  obtain ⟨r, A, B, tcs, hr, hm⟩ := C2_call_and_output_adjacent .undefined
    (.obj [("input", .arr
      [.obj [("type", .str "function_call"), ("call_id", .str "c1"),
             ("name", .str "f"), ("arguments", .str "x")],
       .obj [("type", .str "function_call_output"), ("call_id", .str "c1"),
             ("output", .num 42)]])]) .undefined .undefined
    [] []
    (.obj [("type", .str "function_call"), ("call_id", .str "c1"),
           ("name", .str "f"), ("arguments", .str "x")])
    (.obj [("type", .str "function_call_output"), ("call_id", .str "c1"),
           ("output", .num 42)])
    rfl rfl rfl rfl
  exact rfl

theorem atomsOfMsgs_append (a b : List JVal) :
    atomsOfMsgs (a ++ b) = atomsOfMsgs a ++ atomsOfMsgs b := by
  induction a with
  | nil => rfl
  | cons m a ih => simp [atomsOfMsgs, ih]

/-- One loop step changes the flattened atoms by exactly the atom of the
processed item (nothing for a `reasoning` item). -/
theorem stepItem_atoms (st : LoopSt) (item : JVal)
    (hp : st.pending = []) (hcur : CurOk st.cur) (hrec : recognizedItem item = true) :
    atomsOfMsgs (stepItem st item).messages ++ curAtoms (stepItem st item).cur =
      atomsOfMsgs st.messages ++ curAtoms st.cur ++
        (if nonReasoning item then [itemAtom item] else []) := by
  obtain ⟨msgs, cur, pending⟩ := st
  have hp2 : pending = [] := hp
  subst hp2
  have hc2 : CurOk cur := hcur
  simp only [recognizedItem, Bool.or_eq_true] at hrec
  rcases hrec with ((h | h) | h) | h
  all_goals have hty := JVal.isStr_eq h
  · rcases hc2 with hn | ⟨tcs, hs⟩
    · have h0 : cur = none := hn
      subst h0
      simp only [stepItem, itemAtom, nonReasoning, hty]
      simp [JVal.isStr, flushCur, flushPending, atomsOfMsgs_append, atomsOfMsgs,
        atomsOfMsg, convMessageItem, curAtoms, JVal.get, lookupA]
    · have h0 : cur = some (JVal.obj
          [("role", .str "assistant"), ("content", .null), ("tool_calls", .arr tcs)]) := hs
      subst h0
      simp only [stepItem, itemAtom, nonReasoning, hty]
      simp [JVal.isStr, flushCur, flushPending, atomsOfMsgs_append, atomsOfMsgs,
        atomsOfMsg, convMessageItem, curAtoms, JVal.get, lookupA]
  · rcases hc2 with hn | ⟨tcs, hs⟩
    · have h0 : cur = none := hn
      subst h0
      simp only [stepItem, itemAtom, nonReasoning, hty]
      simp [JVal.isStr, curAtoms, atomsOfMsg, emptyAssistant, JVal.pushIntoArrField,
        JVal.get, lookupA, JVal.setField, setA, atomsOfMsgs]
    · have h0 : cur = some (JVal.obj
          [("role", .str "assistant"), ("content", .null), ("tool_calls", .arr tcs)]) := hs
      subst h0
      simp only [stepItem, itemAtom, nonReasoning, hty]
      simp [JVal.isStr, curAtoms, atomsOfMsg, JVal.pushIntoArrField,
        JVal.get, lookupA, JVal.setField, setA, atomsOfMsgs]
  · rcases hc2 with hn | ⟨tcs, hs⟩
    · have h0 : cur = none := hn
      subst h0
      simp only [stepItem, itemAtom, nonReasoning, hty]
      simp [JVal.isStr, flushCur, flushPending, atomsOfMsgs_append, atomsOfMsgs,
        atomsOfMsg, toolMsgOfItem, curAtoms, JVal.get, lookupA]
    · have h0 : cur = some (JVal.obj
          [("role", .str "assistant"), ("content", .null), ("tool_calls", .arr tcs)]) := hs
      subst h0
      simp only [stepItem, itemAtom, nonReasoning, hty]
      simp [JVal.isStr, flushCur, flushPending, atomsOfMsgs_append, atomsOfMsgs,
        atomsOfMsg, toolMsgOfItem, curAtoms, JVal.get, lookupA]
  · simp only [stepItem, itemAtom, nonReasoning, hty]
    simp [JVal.isStr]

theorem foldl_stepItem_atoms (items : List JVal) :
    ∀ st : LoopSt, st.pending = [] → CurOk st.cur →
      (∀ item ∈ items, recognizedItem item = true) →
      atomsOfMsgs (items.foldl stepItem st).messages ++
          curAtoms (items.foldl stepItem st).cur =
        atomsOfMsgs st.messages ++ curAtoms st.cur ++
          (items.filter nonReasoning).map itemAtom := by
  induction items with
  | nil =>
    intro st _ _ _
    simp [List.filter]
  | cons item rest ih =>
    intro st hp hc hrec
    have hstep := stepItem_atoms st item hp hc (hrec item (by simp))
    have hrest := ih (stepItem st item) (stepItem_pending st item hp)
      (stepItem_curOk st item hc) (fun i hi => hrec i (by simp [hi]))
    rw [List.foldl_cons, hrest, hstep]
    cases hnr : nonReasoning item <;> simp [List.filter_cons, hnr]

/-- The flattened atoms of the full built message list are the initial
system-message block followed by the converted non-reasoning items, in input
order. -/
theorem buildMessages_atoms (instr : JVal) (items : List JVal)
    (hrec : ∀ item ∈ items, recognizedItem item = true) :
    atomsOfMsgs (buildMessages instr items) =
      initMessages instr ++ (items.filter nonReasoning).map itemAtom := by
  have h := foldl_stepItem_atoms items ⟨initMessages instr, none, []⟩ rfl (Or.inl rfl) hrec
  have hpend := foldl_stepItem_pending items ⟨initMessages instr, none, []⟩ rfl
  have hinit : atomsOfMsgs (initMessages instr) = initMessages instr := by
    rw [initMessages]
    split <;> simp [atomsOfMsgs, atomsOfMsg, JVal.get, lookupA]
  have hcur : atomsOfMsgs (match (items.foldl stepItem
        (⟨initMessages instr, none, []⟩ : LoopSt)).cur with
      | some m => [m]
      | none => []) =
      curAtoms (items.foldl stepItem (⟨initMessages instr, none, []⟩ : LoopSt)).cur := by
    cases (items.foldl stepItem (⟨initMessages instr, none, []⟩ : LoopSt)).cur <;>
      simp [atomsOfMsgs, curAtoms]
  simp only [buildMessages]
  rw [hpend, atomsOfMsgs_append, atomsOfMsgs_append, hcur]
  simp only [atomsOfMsgs, List.append_nil]
  rw [h]
  simp [hinit, curAtoms]

theorem stepItem_reasoning_skip (st : LoopSt) (item : JVal)
    (h : nonReasoning item = false) : stepItem st item = st := by
  have hty : (item.get "type").isStr "reasoning" = true := by
    simpa [nonReasoning] using h
  have hty2 := JVal.isStr_eq hty
  simp only [stepItem, hty2]
  simp [JVal.isStr]

/-- Dropping the `reasoning` items from the input leaves the built message
list unchanged: they contribute nothing. -/
theorem buildMessages_filter_reasoning (instr : JVal) (items : List JVal) :
    buildMessages instr items = buildMessages instr (items.filter nonReasoning) := by
  have hfold : ∀ st : LoopSt, items.foldl stepItem st =
      (items.filter nonReasoning).foldl stepItem st := by
    induction items with
    | nil => intro st; rfl
    | cons item rest ih =>
      intro st
      cases h : nonReasoning item with
      | true => simp [List.filter_cons, h, ih]
      | false => simp [List.filter_cons, h, ih, stepItem_reasoning_skip st item h]
  simp only [buildMessages, hfold]

/-- C3: for every well-typed input turn list, the flattened output preserves
the relative order of all non-reasoning items (the flattened atoms of the
output messages are exactly the converted non-reasoning items in input order,
after the optional instructions block), and `reasoning` items contribute no
message at all. -/
theorem C3_order_preserved_reasoning_dropped (model body stream credentials : JVal)
    (items : List JVal) (hin : body.get "input" = .arr items)
    (hrec : ∀ item ∈ items, recognizedItem item = true) :
    ∃ r, openaiResponsesToOpenAIRequest model body stream credentials = some r ∧
      r.get "messages" = .arr (buildMessages (body.get "instructions") items) ∧
      atomsOfMsgs (buildMessages (body.get "instructions") items) =
        initMessages (body.get "instructions") ++
          (items.filter nonReasoning).map itemAtom ∧
      buildMessages (body.get "instructions") items =
        buildMessages (body.get "instructions") (items.filter nonReasoning) := by
  obtain ⟨r, hr, hm⟩ := run_messages model body stream credentials items hin
  exact ⟨r, hr, hm, buildMessages_atoms _ _ hrec, buildMessages_filter_reasoning _ _⟩

/-- Witness for C3: a five-item turn list (reasoning, message, call, output,
reasoning) flattens to exactly the three converted non-reasoning items, in
order, with both reasoning items absent. -/
theorem C3_order_preserved_reasoning_dropped_witness :
    openaiResponsesToOpenAIRequest .undefined
        (.obj [("input", .arr
          [.obj [("type", .str "reasoning"), ("summary", .str "th")],
           .obj [("type", .str "message"), ("role", .str "user"), ("content", .str "hi")],
           .obj [("type", .str "function_call"), ("call_id", .str "c9"),
                 ("name", .str "g"), ("arguments", .str "a")],
           .obj [("type", .str "function_call_output"), ("call_id", .str "c9"),
                 ("output", .str "ok")],
           .obj [("type", .str "reasoning")]])]) .undefined .undefined =
      some (.obj [("messages", .arr
        [.obj [("role", .str "user"), ("content", .str "hi")],
         .obj [("role", .str "assistant"), ("content", .null),
               ("tool_calls", .arr [.obj [("id", .str "c9"), ("type", .str "function"),
                 ("function", .obj [("name", .str "g"), ("arguments", .str "a")])]])],
         .obj [("role", .str "tool"), ("tool_call_id", .str "c9"),
               ("content", .str "ok")]])]) ∧
    atomsOfMsgs
        [.obj [("role", .str "user"), ("content", .str "hi")],
         .obj [("role", .str "assistant"), ("content", .null),
               ("tool_calls", .arr [.obj [("id", .str "c9"), ("type", .str "function"),
                 ("function", .obj [("name", .str "g"), ("arguments", .str "a")])]])],
         .obj [("role", .str "tool"), ("tool_call_id", .str "c9"),
               ("content", .str "ok")]] =
      [.obj [("role", .str "user"), ("content", .str "hi")],
       .obj [("id", .str "c9"), ("type", .str "function"),
             ("function", .obj [("name", .str "g"), ("arguments", .str "a")])],
       .obj [("role", .str "tool"), ("tool_call_id", .str "c9"),
             ("content", .str "ok")]] := by
  obtain ⟨r, hr, hm, hatoms, hfilter⟩ := C3_order_preserved_reasoning_dropped .undefined
    (.obj [("input", .arr
      [.obj [("type", .str "reasoning"), ("summary", .str "th")],
       .obj [("type", .str "message"), ("role", .str "user"), ("content", .str "hi")],
       .obj [("type", .str "function_call"), ("call_id", .str "c9"),
             ("name", .str "g"), ("arguments", .str "a")],
       .obj [("type", .str "function_call_output"), ("call_id", .str "c9"),
             ("output", .str "ok")],
       .obj [("type", .str "reasoning")]])]) .undefined .undefined
    [.obj [("type", .str "reasoning"), ("summary", .str "th")],
     .obj [("type", .str "message"), ("role", .str "user"), ("content", .str "hi")],
     .obj [("type", .str "function_call"), ("call_id", .str "c9"),
           ("name", .str "g"), ("arguments", .str "a")],
     .obj [("type", .str "function_call_output"), ("call_id", .str "c9"),
           ("output", .str "ok")],
     .obj [("type", .str "reasoning")]]
    rfl (by decide)
  exact ⟨rfl, rfl⟩

/-- C7 counterexample: a declaration that HAS a `function` field whose value
is `null` is not passed through unchanged — the source tests `tool.function`
for truthiness, not presence, so this declaration is wrapped (and its `null`
function is replaced by the synthesized nested object).  This refutes the
claim that every declaration having `.function` passes through unchanged. -/
theorem C7_counterexample_function_null_not_passed_through :
    openaiResponsesToOpenAIRequest .undefined
        (.obj [("input", .arr []),
               ("tools", .arr [.obj [("function", .null), ("name", .str "f")]])])
        .undefined .undefined =
      some (.obj [("tools", .arr
        [.obj [("type", .str "function"),
               ("function", .obj [("name", .str "f"), ("description", .undefined),
                 ("parameters", .undefined), ("strict", .undefined)])]]),
        ("messages", .arr [])]) ∧
    (JVal.obj [("type", .str "function"),
        ("function", .obj [("name", .str "f"), ("description", .undefined),
          ("parameters", .undefined), ("strict", .undefined)])]) ≠
      .obj [("function", .null), ("name", .str "f")] := by
  refine ⟨rfl, ?_⟩
  intro h
  have h2 := congrArg (fun v => JVal.get v "type") h
  simp [JVal.get, lookupA] at h2

/-- C7 as amended: every tool declaration whose `function` field is falsy
(in particular, absent) is wrapped into the canonical nested shape
`{type, function: {name, description, parameters, strict}}`, and every
declaration whose `function` field is truthy is passed through unchanged. -/
theorem C7_amended_tools_normalized_by_truthiness
    (model body stream credentials : JVal) (items ts : List JVal)
    (hin : body.get "input" = .arr items) (htools : body.get "tools" = .arr ts) :
    ∃ r, openaiResponsesToOpenAIRequest model body stream credentials = some r ∧
      r.get "tools" = .arr (ts.map convTool) ∧
      ∀ t : JVal, ((t.get "function").truthy = true → convTool t = t) ∧
        ((t.get "function").truthy = false → convTool t =
          .obj [("type", .str "function"),
                ("function", .obj [("name", t.get "name"),
                  ("description", t.get "description"),
                  ("parameters", t.get "parameters"),
                  ("strict", t.get "strict")])]) := by
  refine ⟨_, run_eq model body stream credentials items hin, ?_, ?_⟩
  · rw [get_stripResponsesFields_ne _ _ (by decide) (by decide) (by decide) (by decide)
      (by decide) (by decide)]
    rw [applyToolsConv, htools]
    simp only [JVal.truthy, if_true]
    cases body with
    | obj fs => exact JVal.get_setField_self _ "tools" _
    | undefined => simp [JVal.get] at hin
    | null => simp [JVal.get] at hin
    | bool b => simp [JVal.get] at hin
    | num n => simp [JVal.get] at hin
    | str s => simp [JVal.get] at hin
    | arr xs => simp [JVal.get] at hin
  · intro t
    constructor <;> intro ht <;> simp [convTool, ht]

/-- Witness for the amended C7: a flat declaration is wrapped, a nested
declaration (truthy `function`) passes through unchanged. -/
theorem C7_amended_tools_normalized_by_truthiness_witness :
    openaiResponsesToOpenAIRequest .undefined
        (.obj [("input", .arr []),
               ("tools", .arr [.obj [("name", .str "a"), ("parameters", .null)],
                 .obj [("type", .str "function"),
                       ("function", .obj [("name", .str "b")])]])]) .undefined .undefined =
      some (.obj [("tools", .arr
        [.obj [("type", .str "function"),
               ("function", .obj [("name", .str "a"), ("description", .undefined),
                 ("parameters", .null), ("strict", .undefined)])],
         .obj [("type", .str "function"), ("function", .obj [("name", .str "b")])]]),
        ("messages", .arr [])]) := by
  obtain ⟨r, hr, htools, hcases⟩ := C7_amended_tools_normalized_by_truthiness .undefined
    (.obj [("input", .arr []),
           ("tools", .arr [.obj [("name", .str "a"), ("parameters", .null)],
             .obj [("type", .str "function"),
                   ("function", .obj [("name", .str "b")])]])]) .undefined .undefined
    [] [.obj [("name", .str "a"), ("parameters", .null)],
        .obj [("type", .str "function"), ("function", .obj [("name", .str "b")])]]
    rfl rfl
  exact rfl

theorem catchPolicy_decide_true (P : Prop) [Decidable P] (b : Bool) (h : P) :
    catchPolicy (decide P) b = .giveUp := by
  simp [catchPolicy, h]

theorem catchPolicy_decide_false_abort (P : Prop) [Decidable P] (h : ¬ P) :
    catchPolicy (decide P) true = .retry := by
  simp [catchPolicy, h]

theorem catchPolicy_decide_false_other (P : Prop) [Decidable P] (h : ¬ P) :
    catchPolicy (decide P) false = .reraise := by
  simp [catchPolicy, h]

/-- The four-conjunct loop contract at a terminal `null` return. -/
theorem traceSpec_ok_none (made5 : Nat) (delays : List Nat) (Q : Prop)
    (hle : made5 ≤ 5) (hdel : ∀ d ∈ delays, d = ONBOARD_DELAY_MS) :
    (((⟨.ok none, made5, delays⟩ : OnboardTrace).attempts ≤ MAX_ATTEMPTS ∧
      ∀ d ∈ (⟨.ok none, made5, delays⟩ : OnboardTrace).delays, d = ONBOARD_DELAY_MS)) ∧
    ((⟨.ok none, made5, delays⟩ : OnboardTrace).result = .thrown →
      (⟨.ok none, made5, delays⟩ : OnboardTrace).attempts < MAX_ATTEMPTS) ∧
    ((⟨.ok none, made5, delays⟩ : OnboardTrace).attempts = MAX_ATTEMPTS → Q →
      (⟨.ok none, made5, delays⟩ : OnboardTrace).result = .ok none) := by
  refine ⟨⟨?_, hdel⟩, ?_, fun _ _ => rfl⟩
  · simpa [MAX_ATTEMPTS] using hle
  · intro h
    simp at h

/-- The four-conjunct loop contract at a terminal propagated exception. -/
theorem traceSpec_thrown (made5 : Nat) (delays : List Nat) (Q : Prop)
    (hlt : made5 < 5) (hdel : ∀ d ∈ delays, d = ONBOARD_DELAY_MS) :
    (((⟨.thrown, made5, delays⟩ : OnboardTrace).attempts ≤ MAX_ATTEMPTS ∧
      ∀ d ∈ (⟨.thrown, made5, delays⟩ : OnboardTrace).delays, d = ONBOARD_DELAY_MS)) ∧
    ((⟨.thrown, made5, delays⟩ : OnboardTrace).result = .thrown →
      (⟨.thrown, made5, delays⟩ : OnboardTrace).attempts < MAX_ATTEMPTS) ∧
    ((⟨.thrown, made5, delays⟩ : OnboardTrace).attempts = MAX_ATTEMPTS → Q →
      (⟨.thrown, made5, delays⟩ : OnboardTrace).result = .ok none) := by
  refine ⟨⟨?_, hdel⟩, ?_, ?_⟩
  · simp [MAX_ATTEMPTS]
    omega
  · intro _
    simpa [MAX_ATTEMPTS] using hlt
  · intro h1 _
    exfalso
    simp [MAX_ATTEMPTS] at h1
    omega
theorem onboardLoop_spec (oracle : Nat → FetchOutcome) :
    ∀ (left made : Nat) (delays : List Nat), made + left = MAX_ATTEMPTS →
      (∀ d ∈ delays, d = ONBOARD_DELAY_MS) →
      ((onboardLoop oracle left made delays).attempts ≤ MAX_ATTEMPTS ∧
       (∀ d ∈ (onboardLoop oracle left made delays).delays, d = ONBOARD_DELAY_MS)) ∧
      ((onboardLoop oracle left made delays).result = .thrown →
        (onboardLoop oracle left made delays).attempts < MAX_ATTEMPTS) ∧
      ((onboardLoop oracle left made delays).attempts = MAX_ATTEMPTS →
        fetchYieldsProject (oracle MAX_ATTEMPTS) = false →
        (onboardLoop oracle left made delays).result = .ok none) := by
  intro left
  induction left with
  | zero =>
    intro made delays hinv hdel
    have h5 : made = 5 := by simpa [MAX_ATTEMPTS] using hinv
    refine ⟨⟨?_, hdel⟩, ?_, fun _ _ => rfl⟩
    · show made ≤ MAX_ATTEMPTS
      simp [MAX_ATTEMPTS]
      omega
    · intro h
      exact absurd h (by simp [onboardLoop])
  | succ l ih =>
    intro made delays hinv hdel
    have h5 : made + (l + 1) = 5 := hinv
    have hdel2 : ∀ d ∈ delays ++ [ONBOARD_DELAY_MS], d = ONBOARD_DELAY_MS := by
      intro d hd
      rcases List.mem_append.mp hd with h | h
      · exact hdel d h
      · simpa using h
    simp only [onboardLoop]
    split
    · -- abortError
      by_cases hl : MAX_ATTEMPTS - l = MAX_ATTEMPTS
      · rw [catchPolicy_decide_true _ _ hl]
        exact traceSpec_ok_none (made + 1) delays _ (by omega) hdel
      · rw [catchPolicy_decide_false_abort _ hl]
        exact ih (made + 1) delays (by omega : made + 1 + l = 5) hdel
    · -- otherError
      by_cases hl : MAX_ATTEMPTS - l = MAX_ATTEMPTS
      · rw [catchPolicy_decide_true _ _ hl]
        exact traceSpec_ok_none (made + 1) delays _ (by omega) hdel
      · rw [catchPolicy_decide_false_other _ hl]
        have hl5 : ¬ (5 - l = 5) := hl
        exact traceSpec_thrown (made + 1) delays _ (by omega) hdel
    · -- resp ok js
      rename_i ok js hresp
      cases ok
      · rw [if_pos (by simp : ¬ (false = true))]
        by_cases hl : MAX_ATTEMPTS - l = MAX_ATTEMPTS
        · rw [catchPolicy_decide_true _ _ hl]
          exact traceSpec_ok_none (made + 1) delays _ (by omega) hdel
        · rw [catchPolicy_decide_false_other _ hl]
          have hl5 : ¬ (5 - l = 5) := hl
          exact traceSpec_thrown (made + 1) delays _ (by omega) hdel
      · rw [if_neg (by simp : ¬ ¬ (true = true))]
        cases js with
        | none =>
          dsimp only
          by_cases hl : MAX_ATTEMPTS - l = MAX_ATTEMPTS
          · rw [catchPolicy_decide_true _ _ hl]
            exact traceSpec_ok_none (made + 1) delays _ (by omega) hdel
          · rw [catchPolicy_decide_false_other _ hl]
            have hl5 : ¬ (5 - l = 5) := hl
            exact traceSpec_thrown (made + 1) delays _ (by omega) hdel
        | some data =>
          dsimp only
          cases hdone : data.get "done"
          case bool b =>
            cases b
            case true =>
              dsimp only
              cases hext : extractProjectIdFromOnboard data with
              | some pid =>
                dsimp only
                refine ⟨⟨?_, hdel⟩, ?_, ?_⟩
                · show made + 1 ≤ MAX_ATTEMPTS
                  simp [MAX_ATTEMPTS]
                  omega
                · intro h
                  simp at h
                · intro h1 h2
                  exfalso
                  have h1b : made + 1 = 5 := h1
                  have hl0 : l = 0 := by omega
                  subst hl0
                  rw [Nat.sub_zero] at hresp
                  rw [hresp] at h2
                  simp [fetchYieldsProject, hdone, hext] at h2
              | none =>
                dsimp only
                by_cases hl : MAX_ATTEMPTS - l = MAX_ATTEMPTS
                · rw [catchPolicy_decide_true _ _ hl]
                  exact traceSpec_ok_none (made + 1) delays _ (by omega) hdel
                · rw [catchPolicy_decide_false_other _ hl]
                  have hl5 : ¬ (5 - l = 5) := hl
                  exact traceSpec_thrown (made + 1) delays _ (by omega) hdel
            case false =>
              dsimp only
              exact ih (made + 1) (delays ++ [ONBOARD_DELAY_MS])
                (by omega : made + 1 + l = 5) hdel2
          all_goals
            (dsimp only
             exact ih (made + 1) (delays ++ [ONBOARD_DELAY_MS])
               (by omega : made + 1 + l = 5) hdel2)

/-- C8: the `onboardUser` polling loop uses a fixed retry count and a fixed
delay, never exponential backoff: the retry cap is the constant 5 and the
not-done delay the constant 2000 ms; every run makes at most `MAX_ATTEMPTS`
fetch attempts; every performed sleep is exactly `ONBOARD_DELAY_MS`; an
exception never escapes from the final attempt (so a failing 5th attempt
returns `null`); and a run that exhausts all attempts without the upstream
yielding a project id returns `null` rather than throwing. -/
theorem C8_onboard_fixed_retries_fixed_delay (oracle : Nat → FetchOutcome) :
    MAX_ATTEMPTS = 5 ∧ ONBOARD_DELAY_MS = 2000 ∧
    (onboardUser oracle).attempts ≤ MAX_ATTEMPTS ∧
    (∀ d ∈ (onboardUser oracle).delays, d = ONBOARD_DELAY_MS) ∧
    ((onboardUser oracle).result = .thrown →
      (onboardUser oracle).attempts < MAX_ATTEMPTS) ∧
    ((onboardUser oracle).attempts = MAX_ATTEMPTS →
      fetchYieldsProject (oracle MAX_ATTEMPTS) = false →
      (onboardUser oracle).result = .ok none) := by
  obtain ⟨⟨h1, h2⟩, h3, h4⟩ := onboardLoop_spec oracle MAX_ATTEMPTS 0 [] rfl (by simp)
  exact ⟨rfl, rfl, h1, h2, h3, h4⟩

/-- Witness for C8: against an upstream that never reports done, the run
makes exactly 5 attempts, sleeps 2000 ms after each of them, and returns
`null`. -/
theorem C8_onboard_fixed_retries_fixed_delay_witness :
    (onboardUser neverDoneOracle).result = .ok none ∧
    (onboardUser neverDoneOracle).attempts = 5 ∧
    (onboardUser neverDoneOracle).delays = [2000, 2000, 2000, 2000, 2000] := by
  obtain ⟨_, _, _, _, _, h6⟩ := C8_onboard_fixed_retries_fixed_delay neverDoneOracle
  exact ⟨h6 rfl rfl, rfl, rfl⟩

/-- C9: while a project-id fetch for a connection is in flight (a
`pendingFetches` entry exists) and the cache has no fresh entry, a further
call for the same connection returns the first call's promise and changes
nothing (in particular it registers no new fetch); and settling the fetch
removes the per-key in-flight entry whether it succeeded, returned `null`, or
threw. -/
theorem C9_inflight_dedup_and_cleanup :
    (∀ (st : PIdState) (now : Nat) (connectionId accessToken : String) (p : Nat),
      connectionId ≠ "" → accessToken ≠ "" →
      (∀ e, lookupA st.projectIdCache connectionId = some e →
        CACHE_TTL_MS ≤ now - e.fetchedAt) →
      lookupA st.pendingFetches connectionId = some p →
      getProjectIdForConnection_call st now connectionId accessToken = (st, .joined p)) ∧
    (∀ (st : PIdState) (now : Nat) (connectionId : String) (s : FetchSettle),
      lookupA (getProjectIdForConnection_settle st now connectionId s).1.pendingFetches
        connectionId = none) := by
  constructor
  · intro st now cid tok p hcid htok hcache hp
    cases hc : lookupA st.projectIdCache cid with
    | none => simp [getProjectIdForConnection_call, hcid, htok, hc, hp]
    | some e =>
      have h1 : ¬ (now - e.fetchedAt < CACHE_TTL_MS) := Nat.not_lt.mpr (hcache e hc)
      simp [getProjectIdForConnection_call, hcid, htok, hc, h1, hp]
  · intro st now cid s
    cases s <;> simp [getProjectIdForConnection_settle, lookupA_delA_self]

/-- Witness for C9: with a fetch for "conn" in flight as promise 7 and an
empty cache, a second call joins promise 7 and leaves the state unchanged;
settling with an error removes the in-flight entry. -/
theorem C9_inflight_dedup_and_cleanup_witness :
    getProjectIdForConnection_call ⟨[], [("conn", 7)], 8⟩ 0 "conn" "tok" =
      (⟨[], [("conn", 7)], 8⟩, .joined 7) ∧
    lookupA (getProjectIdForConnection_settle ⟨[], [("conn", 7)], 8⟩ 5 "conn"
      .errored).1.pendingFetches "conn" = none := by
  obtain ⟨hcall, hsettle⟩ := C9_inflight_dedup_and_cleanup
  exact ⟨hcall ⟨[], [("conn", 7)], 8⟩ 0 "conn" "tok" 7 (by decide) (by decide)
    (by intro e he; simp [lookupA] at he) rfl,
    hsettle ⟨[], [("conn", 7)], 8⟩ 5 "conn" .errored⟩

/-! ## Heap lemmas for the frame property -/

theorem JHeap.Extends.refl (h : JHeap) : h.Extends h :=
  ⟨le_refl _, fun _ _ => rfl, fun hw => hw⟩

theorem JHeap.Extends.trans {h1 h2 h3 : JHeap} (e1 : h1.Extends h2) (e2 : h2.Extends h3) :
    h1.Extends h3 := by
  obtain ⟨l1, m1, w1⟩ := e1
  obtain ⟨l2, m2, w2⟩ := e2
  exact ⟨le_trans l1 l2, fun a ha => (m2 a (lt_of_lt_of_le ha l1)).trans (m1 a ha),
    fun hw => w2 (w1 hw)⟩

theorem JHeap.alloc_extends (h : JHeap) (o : HObj) : h.Extends (h.alloc o).1 := by
  refine ⟨by simp [JHeap.alloc], fun a ha => ?_, fun hw a ha => ?_⟩
  · simp only [JHeap.alloc]
    have : a ≠ h.next := by omega
    simp [this]
  · simp only [JHeap.alloc] at ha ⊢
    have : a ≠ h.next := by omega
    simp [this]
    exact hw a (by omega)

theorem JHeap.alloc_addr (h : JHeap) (o : HObj) : (h.alloc o).2 = h.next := rfl

theorem JHeap.alloc_next (h : JHeap) (o : HObj) : (h.alloc o).1.next = h.next + 1 := rfl

theorem JHeap.alloc_mem_new (h : JHeap) (o : HObj) :
    (h.alloc o).1.mem h.next = some o := by
  simp [JHeap.alloc]

theorem JHeap.alloc_mem_lt (h : JHeap) (o : HObj) (a : Nat) (ha : a < h.next) :
    (h.alloc o).1.mem a = h.mem a := by
  have : a ≠ h.next := by omega
  simp [JHeap.alloc, this]

theorem JHeap.spreadAlloc_extends (h : JHeap) (v : HVal) :
    h.Extends (h.spreadAlloc v).1 := by
  cases v with
  | prim p => exact h.alloc_extends _
  | ref a =>
    cases hm : h.mem a with
    | none =>
      simp only [JHeap.spreadAlloc, hm]
      exact h.alloc_extends _
    | some o =>
      cases o <;> simp only [JHeap.spreadAlloc, hm] <;> exact h.alloc_extends _

theorem JHeap.spreadAlloc_addr (h : JHeap) (v : HVal) : (h.spreadAlloc v).2 = h.next := by
  cases v with
  | prim p => rfl
  | ref a =>
    cases hm : h.mem a with
    | none =>
      simp only [JHeap.spreadAlloc, hm]
      rfl
    | some o =>
      cases o <;> simp only [JHeap.spreadAlloc, hm] <;> rfl

theorem JHeap.spreadAlloc_next (h : JHeap) (v : HVal) :
    (h.spreadAlloc v).1.next = h.next + 1 := by
  cases v with
  | prim p => rfl
  | ref a =>
    cases hm : h.mem a with
    | none =>
      simp only [JHeap.spreadAlloc, hm]
      rfl
    | some o =>
      cases o <;> simp only [JHeap.spreadAlloc, hm] <;> rfl

theorem JHeap.write_mem_ne (h : JHeap) (a : Nat) (o : HObj) (b : Nat) (hb : b ≠ a) :
    (h.write a o).mem b = h.mem b := by
  simp [JHeap.write, hb]

theorem HeapExt_write {h0 h : JHeap} (he : HeapExt h0 h) (a : Nat) (o : HObj)
    (ha : h0.next ≤ a) (hlt : a < h.next) : HeapExt h0 (h.write a o) := by
  obtain ⟨hwf, hle, hag⟩ := he
  refine ⟨fun b hb => ?_, hle, fun b hb => ?_⟩
  · have hba : b ≠ a := by
      simp only [JHeap.write] at hb
      omega
    rw [JHeap.write_mem_ne _ _ _ _ hba]
    exact hwf b hb
  · have hba : b ≠ a := by omega
    rw [JHeap.write_mem_ne _ _ _ _ hba]
    exact hag b hb

theorem HeapExt_refl {h0 : JHeap} (hwf : h0.wf) : HeapExt h0 h0 :=
  ⟨hwf, le_refl _, fun _ _ => rfl⟩

theorem HeapExt_of_extends {h0 h h2 : JHeap} (he : HeapExt h0 h) (ex : h.Extends h2) :
    HeapExt h0 h2 := by
  obtain ⟨hwf, hle, hag⟩ := he
  obtain ⟨l2, m2, w2⟩ := ex
  exact ⟨w2 hwf, le_trans hle l2,
    fun a ha => (m2 a (lt_of_lt_of_le ha hle)).trans (hag a ha)⟩

theorem lt_next_of_mem {h : JHeap} (hwf : h.wf) {a : Nat} {o : HObj}
    (hm : h.mem a = some o) : a < h.next := by
  by_contra hcon
  rw [hwf a (by omega)] at hm
  exact Option.noConfusion hm

theorem HeapExt_setFieldA {h0 h : JHeap} (he : HeapExt h0 h) (a : Nat) (k : String)
    (v : HVal) (ha : h0.next ≤ a) : HeapExt h0 (h.setFieldA a k v) := by
  rw [JHeap.setFieldA]
  cases hm : h.mem a with
  | none => exact he
  | some o =>
    cases o with
    | arr xs => exact he
    | obj fs => exact HeapExt_write he a _ ha (lt_next_of_mem he.1 hm)

theorem HeapExt_delFieldA {h0 h : JHeap} (he : HeapExt h0 h) (a : Nat) (k : String)
    (ha : h0.next ≤ a) : HeapExt h0 (h.delFieldA a k) := by
  rw [JHeap.delFieldA]
  cases hm : h.mem a with
  | none => exact he
  | some o =>
    cases o with
    | arr xs => exact he
    | obj fs => exact HeapExt_write he a _ ha (lt_next_of_mem he.1 hm)

theorem HeapExt_pushA {h0 h : JHeap} (he : HeapExt h0 h) (a : Nat) (v : HVal)
    (ha : h0.next ≤ a) : HeapExt h0 (h.pushA a v) := by
  rw [JHeap.pushA]
  cases hm : h.mem a with
  | none => exact he
  | some o =>
    cases o with
    | obj fs => exact he
    | arr xs => exact HeapExt_write he a _ ha (lt_next_of_mem he.1 hm)

theorem HeapExt_foldl_pushA {h0 : JHeap} (msgsA : Nat) (ha : h0.next ≤ msgsA)
    (vs : List HVal) :
    ∀ {h : JHeap}, HeapExt h0 h →
      HeapExt h0 (vs.foldl (fun hh v => hh.pushA msgsA v) h) := by
  induction vs with
  | nil => exact fun he => he
  | cons v vs ih => exact fun he => ih (HeapExt_pushA he msgsA v ha)

theorem JHeap.pushA_mem_obj (h : JHeap) (t : Nat) (v : HVal) {a : Nat}
    {fs : List (String × HVal)} (hm : h.mem a = some (.obj fs)) :
    (h.pushA t v).mem a = h.mem a := by
  rw [JHeap.pushA]
  cases hmt : h.mem t with
  | none => rfl
  | some o =>
    cases o with
    | obj gs => rfl
    | arr xs =>
      have hta : a ≠ t := by
        intro hh
        subst hh
        rw [hm] at hmt
        exact Option.noConfusion hmt (fun he => HObj.noConfusion he)
      exact JHeap.write_mem_ne _ _ _ _ hta

theorem JHeap.getField_congr {h h2 : JHeap} {a : Nat} (hm : h2.mem a = h.mem a)
    (k : String) : h2.getField (.ref a) k = h.getField (.ref a) k := by
  simp [JHeap.getField, hm]

theorem hConvContent_extends (h : JHeap) (c : HVal) : h.Extends (hConvContent h c).1 := by
  rw [hConvContent]
  split
  · exact h.alloc_extends _
  · split
    · exact h.alloc_extends _
    · exact JHeap.Extends.refl h

theorem hMapConv_extends (cs : List HVal) : ∀ h : JHeap, h.Extends (hMapConv h cs).1 := by
  induction cs with
  | nil => exact fun h => JHeap.Extends.refl h
  | cons c cs ih =>
    intro h
    exact (hConvContent_extends h c).trans (ih (hConvContent h c).1)

theorem hMsgContent_extends (h : JHeap) (item : HVal) :
    h.Extends (hMsgContent h item).1 := by
  rw [hMsgContent]
  cases hv : h.getField item "content" with
  | prim p => exact JHeap.Extends.refl h
  | ref a =>
    dsimp only
    cases hm : h.mem a with
    | none => exact JHeap.Extends.refl h
    | some o =>
      cases o with
      | obj fs => exact JHeap.Extends.refl h
      | arr cs => exact (hMapConv_extends cs h).trans (JHeap.alloc_extends _ _)

theorem hToolCallOfItem_extends (h : JHeap) (item : HVal) :
    h.Extends (hToolCallOfItem h item).1 :=
  (h.alloc_extends _).trans (JHeap.alloc_extends _ _)

theorem hToolMsgOfItem_extends (h : JHeap) (item : HVal) :
    h.Extends (hToolMsgOfItem h item).1 :=
  h.alloc_extends _

theorem hConvTool_extends (h : JHeap) (tool : HVal) : h.Extends (hConvTool h tool).1 := by
  rw [hConvTool]
  split
  · exact JHeap.Extends.refl h
  · exact (h.alloc_extends _).trans (JHeap.alloc_extends _ _)

theorem hMapTools_extends (ts : List HVal) : ∀ h : JHeap, h.Extends (hMapTools h ts).1 := by
  induction ts with
  | nil => exact fun h => JHeap.Extends.refl h
  | cons t ts ih =>
    intro h
    exact (hConvTool_extends h t).trans (ih (hConvTool h t).1)
theorem hFlushCur_spec {h0 : JHeap} (msgsA : Nat) (hA : h0.next ≤ msgsA)
    (heap : JHeap) (cur : Option Nat) (pending : List HVal) (he : HeapExt h0 heap) :
    HeapExt h0 (hFlushCur msgsA ⟨heap, cur, pending⟩).heap ∧
    (hFlushCur msgsA ⟨heap, cur, pending⟩).cur = none ∧
    (hFlushCur msgsA ⟨heap, cur, pending⟩).pending = pending := by
  cases cur with
  | none => exact ⟨he, rfl, rfl⟩
  | some a => exact ⟨HeapExt_pushA he msgsA _ hA, rfl, rfl⟩

theorem hFlushPending_spec {h0 : JHeap} (msgsA : Nat) (hA : h0.next ≤ msgsA)
    (heap : JHeap) (cur : Option Nat) (pending : List HVal) (he : HeapExt h0 heap) :
    HeapExt h0 (hFlushPending msgsA ⟨heap, cur, pending⟩).heap ∧
    (hFlushPending msgsA ⟨heap, cur, pending⟩).cur = cur ∧
    (hFlushPending msgsA ⟨heap, cur, pending⟩).pending = [] :=
  ⟨HeapExt_foldl_pushA msgsA hA pending he, rfl, rfl⟩

/-- One heap-level loop step keeps the heap an extension of the original
(no pre-existing address written) and maintains the open-assistant
invariant. -/
theorem hStepItem_inv (h0 : JHeap) (msgsA : Nat) (hA : h0.next ≤ msgsA)
    (st : HLoopSt) (item : HVal)
    (hext : HeapExt h0 st.heap) (hcur : curInv h0.next st) :
    HeapExt h0 (hStepItem msgsA st item).heap ∧
      curInv h0.next (hStepItem msgsA st item) := by
  obtain ⟨heap, cur, pending⟩ := st
  have hext2 : HeapExt h0 heap := hext
  rw [hStepItem]
  split
  · -- message branch
    have e1 := hFlushCur_spec msgsA hA heap cur pending hext2
    have e2 := hFlushPending_spec msgsA hA (hFlushCur msgsA ⟨heap, cur, pending⟩).heap
      (hFlushCur msgsA ⟨heap, cur, pending⟩).cur
      (hFlushCur msgsA ⟨heap, cur, pending⟩).pending e1.1
    refine ⟨?_, ?_⟩
    · exact HeapExt_pushA (HeapExt_of_extends (HeapExt_of_extends e2.1
        (hMsgContent_extends _ item)) (JHeap.alloc_extends _ _)) msgsA _ hA
    · intro a ha
      exact Option.noConfusion ((e2.2.1.trans e1.2.1).symm.trans ha)
  · split
    · -- function_call branch
      cases cur with
      | some a =>
        dsimp only
        obtain ⟨t, hget, ht⟩ := hcur a rfl
        have hmem : ∃ fs, heap.mem a = some (HObj.obj fs) := by
          cases hm : heap.mem a with
          | none =>
            exfalso
            rw [show heap.getField (HVal.ref a) "tool_calls" = HVal.prim HPrim.undefined from
              by simp [JHeap.getField, hm]] at hget
            exact HVal.noConfusion hget
          | some o =>
            cases o with
            | arr xs =>
              exfalso
              rw [show heap.getField (HVal.ref a) "tool_calls" = HVal.prim HPrim.undefined from
                by simp [JHeap.getField, hm]] at hget
              exact HVal.noConfusion hget
            | obj fs => exact ⟨fs, rfl⟩
        obtain ⟨fs, hm⟩ := hmem
        have halt : a < heap.next := lt_next_of_mem hext2.1 hm
        generalize hTC : hToolCallOfItem heap item = pr
        obtain ⟨h2, tc⟩ := pr
        have hfst : (hToolCallOfItem heap item).1 = h2 := congrArg Prod.fst hTC
        have hext3 : heap.Extends h2 := hfst ▸ hToolCallOfItem_extends heap item
        have hm2 : h2.mem a = heap.mem a := hext3.2.1 a halt
        have hget2 : h2.getField (HVal.ref a) "tool_calls" = HVal.ref t :=
          (JHeap.getField_congr hm2 _).trans hget
        rw [hget2]
        dsimp only
        constructor
        · exact HeapExt_pushA (HeapExt_of_extends hext2 hext3) t tc ht
        · intro a2 ha2
          injection ha2 with hh
          subst hh
          refine ⟨t, ?_, ht⟩
          have hmo : h2.mem a = some (HObj.obj fs) := hm2.trans hm
          have hm3 : (h2.pushA t tc).mem a = h2.mem a := JHeap.pushA_mem_obj h2 t tc hmo
          exact (JHeap.getField_congr hm3 _).trans hget2
      | none =>
        dsimp only
        generalize hal1 : heap.alloc (HObj.arr []) = pr1
        obtain ⟨hA1, tcs⟩ := pr1
        have hfst1 : (heap.alloc (HObj.arr [])).1 = hA1 := congrArg Prod.fst hal1
        have hsnd1 : (heap.alloc (HObj.arr [])).2 = tcs := congrArg Prod.snd hal1
        have htcs : tcs = heap.next := hsnd1.symm.trans (JHeap.alloc_addr _ _)
        have e1 : heap.Extends hA1 := hfst1 ▸ heap.alloc_extends _
        have hnext1 : hA1.next = heap.next + 1 := by
          rw [← hfst1]
          rfl
        generalize hal2 : hA1.alloc (HObj.obj
          [("role", HVal.prim (HPrim.str "assistant")), ("content", HVal.prim HPrim.null),
           ("tool_calls", HVal.ref tcs)]) = pr2
        obtain ⟨hB, curA⟩ := pr2
        have hfst2 : (hA1.alloc (HObj.obj
          [("role", HVal.prim (HPrim.str "assistant")), ("content", HVal.prim HPrim.null),
           ("tool_calls", HVal.ref tcs)])).1 = hB := congrArg Prod.fst hal2
        have hsnd2 : (hA1.alloc (HObj.obj
          [("role", HVal.prim (HPrim.str "assistant")), ("content", HVal.prim HPrim.null),
           ("tool_calls", HVal.ref tcs)])).2 = curA := congrArg Prod.snd hal2
        have hcurA : curA = hA1.next := hsnd2.symm.trans (JHeap.alloc_addr _ _)
        have e2 : hA1.Extends hB := hfst2 ▸ hA1.alloc_extends _
        have hnext2 : hB.next = hA1.next + 1 := by
          rw [← hfst2]
          rfl
        have hmemB : hB.mem curA = some (HObj.obj
            [("role", HVal.prim (HPrim.str "assistant")), ("content", HVal.prim HPrim.null),
             ("tool_calls", HVal.ref tcs)]) := by
          rw [← hfst2, hcurA]
          exact JHeap.alloc_mem_new _ _
        have hget1 : hB.getField (HVal.ref curA) "tool_calls" = HVal.ref tcs := by
          simp [JHeap.getField, hmemB, lookupA]
        generalize hTC : hToolCallOfItem hB item = pr3
        obtain ⟨h2, tc⟩ := pr3
        have hfst3 : (hToolCallOfItem hB item).1 = h2 := congrArg Prod.fst hTC
        have e3 : hB.Extends h2 := hfst3 ▸ hToolCallOfItem_extends hB item
        have hcurAlt : curA < hB.next := by omega
        have hm2 : h2.mem curA = hB.mem curA := e3.2.1 curA hcurAlt
        have hget2 : h2.getField (HVal.ref curA) "tool_calls" = HVal.ref tcs :=
          (JHeap.getField_congr hm2 _).trans hget1
        rw [hget2]
        dsimp only
        have htcs0 : h0.next ≤ tcs := by
          rw [htcs]
          exact hext2.2.1
        constructor
        · exact HeapExt_pushA (HeapExt_of_extends (HeapExt_of_extends
            (HeapExt_of_extends hext2 e1) e2) e3) tcs tc htcs0
        · intro a2 ha2
          injection ha2 with hh
          subst hh
          refine ⟨tcs, ?_, htcs0⟩
          have hmo : h2.mem curA = some (HObj.obj
              [("role", HVal.prim (HPrim.str "assistant")), ("content", HVal.prim HPrim.null),
               ("tool_calls", HVal.ref tcs)]) := hm2.trans hmemB
          have hm3 : (h2.pushA tcs tc).mem curA = h2.mem curA :=
            JHeap.pushA_mem_obj h2 tcs tc hmo
          exact (JHeap.getField_congr hm3 _).trans hget2
    · split
      · -- function_call_output branch
        have e1 := hFlushCur_spec msgsA hA heap cur pending hext2
        have e2 := hFlushPending_spec msgsA hA (hFlushCur msgsA ⟨heap, cur, pending⟩).heap
          (hFlushCur msgsA ⟨heap, cur, pending⟩).cur
          (hFlushCur msgsA ⟨heap, cur, pending⟩).pending e1.1
        refine ⟨?_, ?_⟩
        · exact HeapExt_pushA (HeapExt_of_extends e2.1
            (hToolMsgOfItem_extends _ item)) msgsA _ hA
        · intro a ha
          exact Option.noConfusion ((e2.2.1.trans e1.2.1).symm.trans ha)
      · exact ⟨hext2, hcur⟩

theorem foldl_hStepItem_inv (h0 : JHeap) (msgsA : Nat) (hA : h0.next ≤ msgsA)
    (items : List HVal) :
    ∀ st : HLoopSt, HeapExt h0 st.heap → curInv h0.next st →
      HeapExt h0 (items.foldl (hStepItem msgsA) st).heap ∧
        curInv h0.next (items.foldl (hStepItem msgsA) st) := by
  induction items with
  | nil => exact fun st he hc => ⟨he, hc⟩
  | cons item rest ih =>
    intro st he hc
    obtain ⟨he2, hc2⟩ := hStepItem_inv h0 msgsA hA st item he hc
    exact ih (hStepItem msgsA st item) he2 hc2
/-- Frame property of the tail of the heap-level translator run (everything
after the copy, the messages array and the optional instructions message):
the loop, the final flush, the tools conversion and the deletes touch no
pre-existing address. -/
theorem hOpenaiTail_frame (h : JHeap) (body : HVal) (msgsA resultA : Nat)
    (hms0 : h.next ≤ msgsA) (hres0 : h.next ≤ resultA) (h4 : JHeap)
    (he : HeapExt h h4) :
    HeapExt h (
      let items := h4.elems (h4.getField body "input")
      let stF := items.foldl (hStepItem msgsA) ⟨h4, none, []⟩
      let h5 :=
        match stF.cur with
        | some a => stF.heap.pushA msgsA (.ref a)
        | none => stF.heap
      let h6 := stF.pending.foldl (fun hh v => hh.pushA msgsA v) h5
      let h7 :=
        if truthyHv (h6.getField body "tools") then
          match h6.getField body "tools" with
          | .ref ta =>
            match h6.mem ta with
            | some (.arr ts) =>
              let (ha, ts1) := hMapTools h6 ts
              let (hb, newTools) := ha.alloc (.arr ts1)
              hb.setFieldA resultA "tools" (.ref newTools)
            | _ => h6
          | _ => h6
        else h6
      (((((h7.delFieldA resultA "input").delFieldA resultA
          "instructions").delFieldA resultA "include").delFieldA resultA
          "prompt_cache_key").delFieldA resultA "store").delFieldA resultA "reasoning") := by
  have hdel6 : ∀ {hx : JHeap}, HeapExt h hx →
      HeapExt h ((((((hx.delFieldA resultA "input").delFieldA resultA
        "instructions").delFieldA resultA "include").delFieldA resultA
        "prompt_cache_key").delFieldA resultA "store").delFieldA resultA "reasoning") :=
    fun he2 => HeapExt_delFieldA (HeapExt_delFieldA (HeapExt_delFieldA (HeapExt_delFieldA
      (HeapExt_delFieldA (HeapExt_delFieldA he2 resultA "input" hres0) resultA
        "instructions" hres0) resultA "include" hres0) resultA "prompt_cache_key" hres0)
      resultA "store" hres0) resultA "reasoning" hres0
  obtain ⟨heF, hcF⟩ := foldl_hStepItem_inv h msgsA hms0 (h4.elems (h4.getField body "input"))
    ⟨h4, none, []⟩ he (fun a2 ha2 => Option.noConfusion ha2)
  dsimp only
  set stF := (h4.elems (h4.getField body "input")).foldl (hStepItem msgsA)
    (⟨h4, none, []⟩ : HLoopSt) with hstF
  have he5 : HeapExt h (match stF.cur with
      | some a => stF.heap.pushA msgsA (.ref a)
      | none => stF.heap) := by
    cases hc : stF.cur with
    | none => exact heF
    | some a2 => exact HeapExt_pushA heF msgsA _ hms0
  have he6 : HeapExt h (stF.pending.foldl (fun hh v => hh.pushA msgsA v)
      (match stF.cur with
      | some a => stF.heap.pushA msgsA (.ref a)
      | none => stF.heap)) :=
    HeapExt_foldl_pushA msgsA hms0 stF.pending he5
  set h6v := stF.pending.foldl (fun hh v => hh.pushA msgsA v)
      (match stF.cur with
      | some a => stF.heap.pushA msgsA (.ref a)
      | none => stF.heap) with hh6
  split
  · cases hgt : h6v.getField body "tools" with
    | prim p => exact hdel6 he6
    | ref ta =>
      dsimp only
      cases hmta : h6v.mem ta with
      | none => exact hdel6 he6
      | some o =>
        cases o with
        | obj fs => exact hdel6 he6
        | arr ts =>
          dsimp only
          exact hdel6 (HeapExt_setFieldA (HeapExt_of_extends he6
            ((hMapTools_extends ts h6v).trans (JHeap.alloc_extends _ _)))
            resultA _ _ hres0)
  · exact hdel6 he6
/-- C6: the translator never mutates any pre-existing heap object: every
address allocated before the call maps to the same object after the call, for
every heap, every body and all values of the `model`, `stream` and
`credentials` arguments.  In particular the body object and everything
reachable from it (its input list, its items, its tools entries) is
structurally unchanged by the call: all mutations of the source target the
shallow copy and objects allocated during the call. -/
theorem C6_translator_never_mutates_preexisting_objects (h : JHeap)
    (model body stream credentials : HVal) (hwf : h.wf) :
    ∀ a, a < h.next →
      (hOpenaiResponsesToOpenAIRequest h model body stream credentials).1.mem a = h.mem a := by
  intro a ha
  rw [hOpenaiResponsesToOpenAIRequest]
  split
  · rfl
  · generalize hsp : h.spreadAlloc body = prS
    obtain ⟨h1, resultA⟩ := prS
    dsimp only
    have hfstS : (h.spreadAlloc body).1 = h1 := congrArg Prod.fst hsp
    have hsndS : (h.spreadAlloc body).2 = resultA := congrArg Prod.snd hsp
    have e1 : h.Extends h1 := hfstS ▸ h.spreadAlloc_extends body
    have hresA : resultA = h.next := hsndS.symm.trans (h.spreadAlloc_addr body)
    have hn1 : h1.next = h.next + 1 := by
      rw [← hfstS]
      exact h.spreadAlloc_next body
    generalize hal : h1.alloc (HObj.arr []) = prM
    obtain ⟨h2, msgsA⟩ := prM
    dsimp only
    have hfstM : (h1.alloc (HObj.arr [])).1 = h2 := congrArg Prod.fst hal
    have hsndM : (h1.alloc (HObj.arr [])).2 = msgsA := congrArg Prod.snd hal
    have e2 : h1.Extends h2 := hfstM ▸ h1.alloc_extends _
    have hmsgsA : msgsA = h1.next := hsndM.symm.trans (JHeap.alloc_addr _ _)
    have hms0 : h.next ≤ msgsA := by omega
    have hres0 : h.next ≤ resultA := by omega
    have he3 : HeapExt h (h2.setFieldA resultA "messages" (HVal.ref msgsA)) :=
      HeapExt_setFieldA (HeapExt_of_extends (HeapExt_of_extends (HeapExt_refl hwf) e1) e2)
        resultA "messages" (HVal.ref msgsA) hres0
    split
    · generalize hals : (h2.setFieldA resultA "messages" (HVal.ref msgsA)).alloc
        (HObj.obj [("role", HVal.prim (HPrim.str "system")),
          ("content", (h2.setFieldA resultA "messages" (HVal.ref msgsA)).getField body
            "instructions")]) = prI
      obtain ⟨hs, m⟩ := prI
      dsimp only
      have hfstI : ((h2.setFieldA resultA "messages" (HVal.ref msgsA)).alloc
          (HObj.obj [("role", HVal.prim (HPrim.str "system")),
            ("content", (h2.setFieldA resultA "messages" (HVal.ref msgsA)).getField body
              "instructions")])).1 = hs := congrArg Prod.fst hals
      have he4a : HeapExt h (hs.pushA msgsA (HVal.ref m)) :=
        HeapExt_pushA (HeapExt_of_extends he3 (hfstI ▸ JHeap.alloc_extends _ _)) msgsA _ hms0
      exact (hOpenaiTail_frame h body msgsA resultA hms0 hres0 _ he4a).2.2 a ha
    · exact (hOpenaiTail_frame h body msgsA resultA hms0 hres0 _ he3).2.2 a ha

/-- Witness for C6 at the concrete three-object heap: the call leaves the
body object at address 0, the input array at address 1 and the item at
address 2 exactly as they were. -/
theorem C6_translator_never_mutates_preexisting_objects_witness :
    sampleHeap.wf ∧ (0 : Nat) < sampleHeap.next ∧
    (hOpenaiResponsesToOpenAIRequest sampleHeap (.prim .undefined) (.ref 0) (.prim .undefined)
      (.prim .undefined)).1.mem 0 = sampleHeap.mem 0 ∧
    (hOpenaiResponsesToOpenAIRequest sampleHeap (.prim .undefined) (.ref 0) (.prim .undefined)
      (.prim .undefined)).1.mem 1 = sampleHeap.mem 1 ∧
    (hOpenaiResponsesToOpenAIRequest sampleHeap (.prim .undefined) (.ref 0) (.prim .undefined)
      (.prim .undefined)).1.mem 2 = sampleHeap.mem 2 := by
  have hwf : sampleHeap.wf := by
    intro b hb
    have h0 : b ≠ 0 := by
      simp [sampleHeap] at hb
      omega
    have h1 : b ≠ 1 := by
      simp [sampleHeap] at hb
      omega
    have h2 : b ≠ 2 := by
      simp [sampleHeap] at hb
      omega
    simp [sampleHeap, h0, h1, h2]
  refine ⟨hwf, by simp [sampleHeap], ?_, ?_, ?_⟩
  · exact C6_translator_never_mutates_preexisting_objects sampleHeap (.prim .undefined) (.ref 0)
      (.prim .undefined) (.prim .undefined) hwf 0 (by simp [sampleHeap])
  · exact C6_translator_never_mutates_preexisting_objects sampleHeap (.prim .undefined) (.ref 0)
      (.prim .undefined) (.prim .undefined) hwf 1 (by simp [sampleHeap])
  · exact C6_translator_never_mutates_preexisting_objects sampleHeap (.prim .undefined) (.ref 0)
      (.prim .undefined) (.prim .undefined) hwf 2 (by simp [sampleHeap])
